import Mathlib

set_option maxRecDepth 8000

/-! Shallow embedding of the Prisma-schema to TypeScript generator in
    src/main.py. Python strings are modelled as lists of characters
    (`Str`), Python dicts as insertion-ordered association lists with
    last-write-wins value replacement in place, and Python sets of names
    as duplicate-free lists whose rendering is always sorted (matching
    the sorted() calls in the source). The parser, which in Python could
    only fail through an uncaught exception, returns `Except` so that a
    raised failure is representable; unguarded indexing is modelled as
    an `.error` result. -/

abbrev Str := List Char

def sl (s : String) : Str := s.data

/-- Python default whitespace for str.strip and str.split (ASCII part). -/
def pyIsSpace (c : Char) : Bool :=
  c == ' ' || c == '\t' || c == '\n' || c == '\r' || c == '\x0b' || c == '\x0c'

/-- Python str.strip(): remove leading and trailing whitespace. -/
def pyStrip (l : Str) : Str :=
  ((l.dropWhile pyIsSpace).reverse.dropWhile pyIsSpace).reverse

def pySplitAux : Str → Str → List Str
  | [], acc => if acc = [] then [] else [acc.reverse]
  | c :: rest, acc =>
    if pyIsSpace c then
      if acc = [] then pySplitAux rest [] else acc.reverse :: pySplitAux rest []
    else pySplitAux rest (c :: acc)

/-- Python str.split() with no argument: whitespace-run splitting, no empty tokens. -/
def pySplit (l : Str) : List Str := pySplitAux l []

/-- Line splitting state machine: the flag records that the previous
    character was a carriage return, so that a directly following line feed
    belongs to the same terminator. -/
def pyLinesAux : Str → Str → Bool → List Str
  | [], acc, _ => if acc = [] then [] else [acc.reverse]
  | c :: rest, acc, sawCR =>
    if c = '\n' then
      if sawCR then pyLinesAux rest acc false
      else acc.reverse :: pyLinesAux rest [] false
    else if c = '\r' then acc.reverse :: pyLinesAux rest [] true
    else pyLinesAux rest (c :: acc) false

/-- Python str.splitlines(): split at line terminators, no trailing empty line. -/
def pyLines (l : Str) : List Str := pyLinesAux l [] false

/-- Literal-prefix test, Python str.startswith. -/
def startsW : Str → Str → Bool
  | [], _ => true
  | _ :: _, [] => false
  | p :: ps, c :: cs => p == c && startsW ps cs

/-- Python str.endswith. -/
def endsW (suf t : Str) : Bool := startsW suf.reverse t.reverse

/-- Python substring containment, the `in` operator on strings. -/
def subIn (pat : Str) : Str → Bool
  | [] => startsW pat []
  | c :: rest => startsW pat (c :: rest) || subIn pat rest

/-- The part of the line before the first occurrence of `pat`:
    Python line.split(pat, 1)[0] when `pat` occurs. -/
def beforeSub (pat : Str) : Str → Str
  | [] => []
  | c :: rest => if startsW pat (c :: rest) then [] else c :: beforeSub pat rest

/-- Python sep.join(pieces). -/
def joinSep (sep : Str) : List Str → Str
  | [] => []
  | [x] => x
  | x :: y :: rest => x ++ sep ++ joinSep sep (y :: rest)

/-- Concatenation of the images of a list, used for sequential emission loops. -/
def catMap {α β : Type} (f : α → List β) : List α → List β
  | [] => []
  | a :: rest => f a ++ catMap f rest

/-- Python dict lookup by key over the insertion-ordered association list. -/
def alookup {α : Type} : List (Str × α) → Str → Option α
  | [], _ => none
  | (k, v) :: rest, q => if k = q then some v else alookup rest q

/-- Python dict assignment d[k] = v: replace in place on a repeated key
    (keeping the original position), append a new key at the end. -/
def dictInsert {α : Type} : List (Str × α) → Str → α → List (Str × α)
  | [], k, v => [(k, v)]
  | (k', v') :: rest, k, v =>
    if k' = k then (k, v) :: rest else (k', v') :: dictInsert rest k v

/-- Code-point lexicographic order on strings, Python string comparison. -/
def lexLe : Str → Str → Bool
  | [], _ => true
  | _ :: _, [] => false
  | a :: s, b :: t =>
    if a.toNat < b.toNat then true
    else if b.toNat < a.toNat then false
    else lexLe s t

def insSorted (x : Str) : List Str → List Str
  | [] => [x]
  | y :: rest => if lexLe x y then x :: y :: rest else y :: insSorted x rest

/-- Python sorted() on a collection of strings. -/
def sortStr (l : List Str) : List Str := l.foldr insSorted []

/-- Decidable check that a list of strings is sorted for lexLe. -/
def sortedB : List Str → Bool
  | [] => true
  | [_] => true
  | a :: b :: rest => lexLe a b && sortedB (b :: rest)

structure EnumDef where
  name : Str
  values : List Str
  deriving DecidableEq, Repr

structure FieldDef where
  name : Str
  type_name : Str
  is_optional : Bool
  is_list : Bool
  raw_line : Str
  deriving DecidableEq, Repr

structure ModelDef where
  name : Str
  fields : List FieldDef
  schema : Option Str
  deriving DecidableEq, Repr

/-- The fixed scalar table SCALAR_TS_MAP of src/main.py. -/
def SCALAR_TS_MAP : List (Str × Str) :=
  [(sl "String", sl "string"),
   (sl "Int", sl "number"),
   (sl "Float", sl "number"),
   (sl "Boolean", sl "boolean"),
   (sl "DateTime", sl "DateTimeString"),
   (sl "Json", sl "JsonValue"),
   (sl "BigInt", sl "number"),
   (sl "Decimal", sl "number")]

/-- strip_line_comments of src/main.py: per line, drop everything from the
    first // on, then rejoin the lines with a newline. -/
def strip_line_comments (schema : Str) : Str :=
  joinSep (sl "\n")
    ((pyLines schema).map (fun line =>
      if subIn (sl "//") line then beforeSub (sl "//") line else line))

/-- The enum-body loop of parse_prisma: first token of each body line is an
    enum value; attribute lines and blank lines are skipped. The only
    possibly-failing operation, l.split()[0], is an explicit error case. -/
def enumValues : List Str → Except String (List Str)
  | [] => .ok []
  | raw :: rest =>
    let l := pyStrip raw
    if l = [] then enumValues rest
    else if startsW (sl "@@schema") l then enumValues rest
    else if startsW (sl "@") l || startsW (sl "@@") l then enumValues rest
    else
      match pySplit l with
      | [] => .error "IndexError"
      | token :: _ =>
        match enumValues rest with
        | .ok vs => .ok (if token = [] then vs else token :: vs)
        | .error e => .error e

/-- The regex search of parse_prisma for a schema annotation: the leftmost
    occurrence of the literal text up to the opening quote, then at least
    one non-quote character, then a quote and a closing parenthesis. -/
def schemaSearch : Str → Option Str
  | [] => none
  | c :: rest =>
    if startsW (sl "@@schema(\"") (c :: rest) then
      let after := (c :: rest).drop 10
      let cap := after.takeWhile (fun ch => !(ch == '"'))
      let tl := after.drop cap.length
      if cap ≠ [] ∧ startsW (sl "\")") tl then some cap else schemaSearch rest
    else schemaSearch rest

/-- The model-body loop of parse_prisma: a schema annotation updates the
    partition name, attribute lines are skipped, a line with at least two
    tokens becomes a field via the trailing-modifier decomposition. -/
def modelBody : List Str → Option Str → List FieldDef × Option Str
  | [], sch => ([], sch)
  | raw :: rest, sch =>
    let l := pyStrip raw
    if l = [] then modelBody rest sch
    else if startsW (sl "@@schema") l then
      modelBody rest (match schemaSearch l with | some cap => some cap | none => sch)
    else if startsW (sl "@") l || startsW (sl "@@") l then modelBody rest sch
    else
      match pySplit l with
      | fname :: ttok :: _ =>
        let is_opt := endsW (sl "?") ttok
        let raw_type := if is_opt then ttok.dropLast else ttok
        let is_lst := endsW (sl "[]") raw_type
        let base := if is_lst then raw_type.dropLast.dropLast else raw_type
        let rec_r := modelBody rest sch
        (⟨fname, base, is_opt, is_lst, l⟩ :: rec_r.1, rec_r.2)
      | _ => modelBody rest sch

/-- Body collection of parse_prisma: accumulate lines until one whose
    stripped form is the closing brace; the remainder starts after it. -/
def collectBody : List Str → List Str × List Str
  | [] => ([], [])
  | l :: rest =>
    if pyStrip l = sl "\x7d" then ([], rest)
    else
      let r := collectBody rest
      (l :: r.1, r.2)

/-- Brace scan of parse_prisma when the header line itself has no opening
    brace: skip lines up to and including the first one containing it. -/
def skipToBrace : List Str → List Str
  | [] => []
  | l :: rest => if subIn (sl "\x7b") l then rest else skipToBrace rest

/-- The main line loop of parse_prisma over the comment-stripped lines.
    The fuel argument only bounds recursion depth; parse_prisma passes the
    line count, which is always sufficient because each step continues on a
    suffix of the remaining lines. -/
def parseLoop : Nat → List Str → List (Str × EnumDef) → List (Str × ModelDef) →
    Except String (List (Str × EnumDef) × List (Str × ModelDef))
  | _, [], enums, models => .ok (enums, models)
  | 0, _ :: _, _, _ => .error "out of fuel"
  | fuel + 1, l :: rest, enums, models =>
    let ls := pyStrip l
    if startsW (sl "model ") ls || startsW (sl "enum ") ls then
      match pySplit ls with
      | kind :: name :: _ =>
        let rest1 := if subIn (sl "\x7b") ls then rest else skipToBrace rest
        let bodyRest := collectBody rest1
        if kind = sl "enum" then
          match enumValues bodyRest.1 with
          | .ok vals => parseLoop fuel bodyRest.2 (dictInsert enums name ⟨name, vals⟩) models
          | .error e => .error e
        else if kind = sl "model" then
          let fs := modelBody bodyRest.1 none
          parseLoop fuel bodyRest.2 enums (dictInsert models name ⟨name, fs.1, fs.2⟩)
        else parseLoop fuel bodyRest.2 enums models
      | _ => parseLoop fuel rest enums models
    else parseLoop fuel rest enums models

/-- parse_prisma of src/main.py: strip comments, split into lines, run the
    block-extraction loop over them. -/
def parse_prisma (schema : Str) :
    Except String (List (Str × EnumDef) × List (Str × ModelDef)) :=
  let lines := pyLines (strip_line_comments schema)
  parseLoop lines.length lines [] []

/-- prisma_field_to_ts of src/main.py, the nested policy. -/
def prisma_field_to_ts (f : FieldDef) (model_names enum_names : List Str) : Str :=
  let base := f.type_name
  let is_model := decide (base ∈ model_names)
  let is_enum := decide (base ∈ enum_names)
  let is_scalar := (alookup SCALAR_TS_MAP base).isSome
  let ts_base :=
    if is_scalar then (alookup SCALAR_TS_MAP base).getD base
    else if is_enum then base
    else base
  if f.is_list then
    let ts_base_list := ts_base ++ sl "[]"
    if is_model then ts_base_list ++ sl " | null" else ts_base_list
  else if !is_model && f.is_optional then ts_base ++ sl " | null"
  else if is_model then ts_base ++ sl " | null"
  else ts_base

/-- prisma_field_to_ts_flat of src/main.py, the flat policy. -/
def prisma_field_to_ts_flat (f : FieldDef) (enum_names : List Str) : Str :=
  let base := f.type_name
  let is_enum := decide (base ∈ enum_names)
  let is_scalar := (alookup SCALAR_TS_MAP base).isSome
  let ts_base :=
    if is_scalar then (alookup SCALAR_TS_MAP base).getD base
    else if is_enum then base
    else sl "any"
  if f.is_list then
    let ts_base_list := ts_base ++ sl "[]"
    if f.is_optional then ts_base_list ++ sl " | null" else ts_base_list
  else if f.is_optional then ts_base ++ sl " | null"
  else ts_base

/-- One emitted member line of a full interface. -/
def fieldLine (model_names enum_names : List Str) (f : FieldDef) : Str :=
  sl "  " ++ f.name ++ sl ": " ++ prisma_field_to_ts f model_names enum_names ++ sl ";"

/-- One emitted member line of a flat interface. -/
def fieldLineFlat (enum_names : List Str) (f : FieldDef) : Str :=
  sl "  " ++ f.name ++ sl ": " ++ prisma_field_to_ts_flat f enum_names ++ sl ";"

/-- The union-of-string-literals line for a non-empty enum. -/
def enumUnionLine (e : EnumDef) : Str :=
  sl "export type " ++ e.name ++ sl " = " ++
    joinSep (sl " | ") (e.values.map (fun v => '"' :: v ++ ['"'])) ++ sl ";"

/-- The enum-emission loop shared by both emitters: enums with no values
    are skipped entirely. -/
def enumLinesSection (enums : List (Str × EnumDef)) : List Str :=
  catMap (fun p => if p.2.values = [] then [] else [enumUnionLine p.2, []]) enums

/-- The member lines of a flat interface: fields whose base type is a
    declared model are skipped (the continue branch of the source loop). -/
def flatFieldLines (model_names enum_names : List Str) (md : ModelDef) : List Str :=
  catMap (fun f => if f.type_name ∈ model_names then [] else [fieldLineFlat enum_names f])
    md.fields

/-- The emitted block of one model: the full interface, then, when
    generate_flat is set, the Flat variant. -/
def modelBlock (model_names enum_names : List Str) (generate_flat : Bool)
    (md : ModelDef) : List Str :=
  (sl "export interface " ++ md.name ++ sl " \x7b") ::
    (md.fields.map (fieldLine model_names enum_names) ++ [sl "\x7d", []]) ++
  (if generate_flat then
    (sl "export interface " ++ md.name ++ sl "Flat \x7b") ::
      (flatFieldLines model_names enum_names md ++ [sl "\x7d", []])
   else [])

/-- The lines of generate_single_file before the final newline join. -/
def singleFileLines (enums : List (Str × EnumDef)) (models : List (Str × ModelDef))
    (generate_flat : Bool) : List Str :=
  let model_names := models.map (·.1)
  let enum_names := enums.map (·.1)
  [sl "// Auto-generated from Prisma schema.",
   sl "// Generated by Prisma TypeTags (single file).",
   [],
   sl "export type DateTimeString = string;",
   sl "export type JsonValue = any;",
   []] ++
  (if enums = [] then []
   else
    [sl "// =========================",
     sl "// ENUM TYPES",
     sl "// =========================",
     []] ++ enumLinesSection enums) ++
  [sl "// =========================",
   sl "// FORWARD DECLARATIONS",
   sl "// =========================",
   []] ++
  models.map (fun p => sl "export interface " ++ p.1 ++ sl " \x7b\x7d") ++
  [[]] ++
  [sl "// =========================",
   sl "// MODELS",
   sl "// =========================",
   []] ++
  catMap (fun p => modelBlock model_names enum_names generate_flat p.2) models

/-- generate_single_file of src/main.py. -/
def generate_single_file (enums : List (Str × EnumDef)) (models : List (Str × ModelDef))
    (generate_flat : Bool) : Str :=
  joinSep (sl "\n") (singleFileLines enums models generate_flat)

/-- common/base.ts of the split emitter. -/
def baseFileContent : Str :=
  joinSep (sl "\n")
    [sl "// Auto-generated by Prisma TypeTags",
     sl "// Common base types",
     sl "export type DateTimeString = string;",
     sl "export type JsonValue = any;",
     []]

/-- common/enums.ts of the split emitter. -/
def enumsFileContent (enums : List (Str × EnumDef)) : Str :=
  joinSep (sl "\n")
    ([sl "// Auto-generated by Prisma TypeTags",
      sl "// Enums for the whole schema"] ++
     (if enums = [] then [] else [] :: enumLinesSection enums))

/-- defaultdict(list) bucket append: the key keeps its first-touch position. -/
def bucketAdd (d : List (Str × List ModelDef)) (k : Str) (m : ModelDef) :
    List (Str × List ModelDef) :=
  match d with
  | [] => [(k, [m])]
  | (k', ms) :: rest =>
    if k' = k then (k', ms ++ [m]) :: rest else (k', ms) :: bucketAdd rest k m

/-- Partition of the models by schema name, absent meaning "default". -/
def models_by_schema (models : List (Str × ModelDef)) : List (Str × List ModelDef) :=
  models.foldl (fun d p => bucketAdd d (p.2.schema.getD (sl "default")) p.2) []

/-- The model-name to partition-name lookup built across all buckets. -/
def model_to_schema (buckets : List (Str × List ModelDef)) : List (Str × Str) :=
  buckets.foldl (fun d p => p.2.foldl (fun d2 md => dictInsert d2 md.name p.1) d) []

/-- defaultdict(set) accumulation: record the name under the source
    partition, never twice. -/
def addCross (acc : List (Str × List Str)) (k v : Str) : List (Str × List Str) :=
  match acc with
  | [] => [(k, [v])]
  | (k', vs) :: rest =>
    if k' = k then (k', if v ∈ vs then vs else vs ++ [v]) :: rest
    else (k', vs) :: addCross rest k v

/-- One field's contribution to the cross-partition import table; the
    partition of the referenced model defaults to the current one when the
    lookup fails. -/
def crossStep (model_names : List Str) (m2s : List (Str × Str)) (schema_name : Str)
    (acc : List (Str × List Str)) (f : FieldDef) : List (Str × List Str) :=
  if f.type_name ∈ model_names then
    if (alookup m2s f.type_name).getD schema_name = schema_name then acc
    else addCross acc ((alookup m2s f.type_name).getD schema_name) f.type_name
  else acc

/-- The cross-partition import table of one partition, in discovery order. -/
def crossImportsOf (model_names : List Str) (m2s : List (Str × Str)) (schema_name : Str)
    (schema_models : List ModelDef) : List (Str × List Str) :=
  schema_models.foldl (fun acc md => md.fields.foldl (crossStep model_names m2s schema_name) acc) []

/-- One cross-partition import statement with its imported-name list. -/
def mkImportLine (other : Str) (names : List Str) : Str :=
  sl "import type \x7b " ++ joinSep (sl ", ") names ++ sl " \x7d from \"../" ++
    other ++ sl "/models\";"

/-- The emitted cross-partition import lines: names sorted, empty name sets
    skipped. -/
def crossImportLines (cross : List (Str × List Str)) : List Str :=
  catMap (fun p => if p.2 = [] then [] else [mkImportLine p.1 (sortStr p.2)]) cross

/-- The lines of one partition's models.ts before the newline join. -/
def schemaFileLines (enums : List (Str × EnumDef)) (models : List (Str × ModelDef))
    (generate_flat : Bool) (schema_name : Str) (schema_models : List ModelDef) :
    List Str :=
  let model_names := models.map (·.1)
  let enum_names := enums.map (·.1)
  let m2s := model_to_schema (models_by_schema models)
  let cross := crossImportsOf model_names m2s schema_name schema_models
  [sl "// Auto-generated by Prisma TypeTags",
   sl "// Types for schema: " ++ schema_name,
   sl "import type \x7b DateTimeString, JsonValue \x7d from \"../common/base\";"] ++
  (if enums = [] then []
   else [sl "import type \x7b " ++ joinSep (sl ", ") (sortStr enum_names) ++
         sl " \x7d from \"../common/enums\";"]) ++
  [[]] ++
  crossImportLines cross ++
  (if cross = [] then [] else [[]]) ++
  catMap (modelBlock model_names enum_names generate_flat) schema_models

/-- index.ts of the split emitter: partitions re-exported in sorted order. -/
def indexFileContent (buckets : List (Str × List ModelDef)) : Str :=
  joinSep (sl "\n")
    ([sl "export * from \"./common/base\";",
      sl "export * from \"./common/enums\";"] ++
     (sortStr (buckets.map (·.1))).map
       (fun sn => sl "export * from \"./" ++ sn ++ sl "/models\";") ++
     [[]])

/-- generate_split_files of src/main.py: the artifact map in insertion order. -/
def generate_split_files (enums : List (Str × EnumDef)) (models : List (Str × ModelDef))
    (generate_flat generate_index : Bool) : List (Str × Str) :=
  let files0 := dictInsert [] (sl "common/base.ts") baseFileContent
  let files1 := dictInsert files0 (sl "common/enums.ts") (enumsFileContent enums)
  let buckets := models_by_schema models
  let files2 := buckets.foldl
    (fun fs p => dictInsert fs (p.1 ++ sl "/models.ts")
      (joinSep (sl "\n") (schemaFileLines enums models generate_flat p.1 p.2)))
    files1
  if generate_index then dictInsert files2 (sl "index.ts") (indexFileContent buckets)
  else files2

/-- Projection of a parse result to its enum map (empty on failure). -/
def enumsOf (r : Except String (List (Str × EnumDef) × List (Str × ModelDef))) :
    List (Str × EnumDef) :=
  match r with
  | .ok p => p.1
  | .error _ => []

/-- Projection of a parse result to its model map (empty on failure). -/
def modelsOf (r : Except String (List (Str × EnumDef) × List (Str × ModelDef))) :
    List (Str × ModelDef) :=
  match r with
  | .ok p => p.2
  | .error _ => []

/-- The schema text of the modifier-lattice cases, declaring models User and
    Pet and enum Role. -/
def c1text : Str :=
  sl "model M \x7b\n  tags String[]\n  bio String?\n  owner User\n  pets Pet[]\n  role Role\n\x7d\nmodel User \x7b\n\x7d\nmodel Pet \x7b\n\x7d\nenum Role \x7b\n  ADMIN\n\x7d"

def c1ModelNames : List Str := [sl "M", sl "User", sl "Pet"]

def c1EnumNames : List Str := [sl "Role"]

/-- C1: under the nested policy the modifier lattice maps the five concrete
    parsed fields exactly as stated: tags String[] to string[], bio String?
    to string | null, owner User to User | null for every value of the
    optional flag, pets Pet[] to Pet[] | null, and required role Role to
    Role; the five fields are the fields the parser produces from the
    declared schema text. -/
theorem c1_modifier_lattice :
    (modelsOf (parse_prisma c1text)).map (·.1) = [sl "M", sl "User", sl "Pet"] ∧
    (enumsOf (parse_prisma c1text)).map (·.1) = [sl "Role"] ∧
    (alookup (modelsOf (parse_prisma c1text)) (sl "M")).map (·.fields) =
      some
        [⟨sl "tags", sl "String", false, true, sl "tags String[]"⟩,
         ⟨sl "bio", sl "String", true, false, sl "bio String?"⟩,
         ⟨sl "owner", sl "User", false, false, sl "owner User"⟩,
         ⟨sl "pets", sl "Pet", false, true, sl "pets Pet[]"⟩,
         ⟨sl "role", sl "Role", false, false, sl "role Role"⟩] ∧
    prisma_field_to_ts ⟨sl "tags", sl "String", false, true, sl "tags String[]"⟩
      c1ModelNames c1EnumNames = sl "string[]" ∧
    prisma_field_to_ts ⟨sl "bio", sl "String", true, false, sl "bio String?"⟩
      c1ModelNames c1EnumNames = sl "string | null" ∧
    (∀ b : Bool,
      prisma_field_to_ts ⟨sl "owner", sl "User", b, false, sl "owner User"⟩
        c1ModelNames c1EnumNames = sl "User | null") ∧
    prisma_field_to_ts ⟨sl "pets", sl "Pet", false, true, sl "pets Pet[]"⟩
      c1ModelNames c1EnumNames = sl "Pet[] | null" ∧
    prisma_field_to_ts ⟨sl "role", sl "Role", false, false, sl "role Role"⟩
      c1ModelNames c1EnumNames = sl "Role" := by
  refine ⟨by decide, by decide, by decide, by decide, by decide, ?_, by decide, by decide⟩
  intro b
  cases b <;> decide

/-- C4, counterexample: the numeric target name is the image of four source
    scalars (Int, Float, BigInt, Decimal), not three as claimed. -/
theorem c4_counterexample :
    ¬ (SCALAR_TS_MAP.filter (fun p => p.2 = sl "number")).length = 3 := by
  decide

/-- C4, amended: the fixed scalar table maps each source scalar to exactly
    one target name (keys are unique), the numeric identifier is the image
    of exactly four distinct source scalars, and the string-like, boolean,
    date-as-string and JSON-value mappings are present. -/
theorem c4_scalar_table :
    (SCALAR_TS_MAP.map (·.1)).Nodup ∧
    (SCALAR_TS_MAP.filter (fun p => p.2 = sl "number")).map (·.1) =
      [sl "Int", sl "Float", sl "BigInt", sl "Decimal"] ∧
    alookup SCALAR_TS_MAP (sl "String") = some (sl "string") ∧
    alookup SCALAR_TS_MAP (sl "Boolean") = some (sl "boolean") ∧
    alookup SCALAR_TS_MAP (sl "DateTime") = some (sl "DateTimeString") ∧
    alookup SCALAR_TS_MAP (sl "Json") = some (sl "JsonValue") := by
  decide

/-- C9: a field whose base type is neither a table scalar nor a declared
    enum nor a declared model is emitted with the type name itself as base
    under the nested policy, and with the dynamic placeholder any as base
    under the flat policy, the modifiers applying on top in each policy. -/
theorem c9_unknown_base (f : FieldDef) (mns ens : List Str)
    (h1 : alookup SCALAR_TS_MAP f.type_name = none)
    (h2 : f.type_name ∉ ens) (h3 : f.type_name ∉ mns) :
    prisma_field_to_ts f mns ens =
      (if f.is_list then f.type_name ++ sl "[]"
       else if f.is_optional then f.type_name ++ sl " | null"
       else f.type_name) ∧
    prisma_field_to_ts_flat f ens =
      (if f.is_list then (if f.is_optional then sl "any[] | null" else sl "any[]")
       else if f.is_optional then sl "any | null" else sl "any") := by
  constructor
  · simp only [prisma_field_to_ts, h1, h2, h3, decide_eq_false, Option.isSome_none,
      Bool.false_eq_true, if_false, Bool.not_false, Bool.true_and]
    cases hl : f.is_list <;> cases ho : f.is_optional <;> simp [sl]
  · simp only [prisma_field_to_ts_flat, h1, h2, decide_eq_false, Option.isSome_none,
      Bool.false_eq_true, if_false]
    cases hl : f.is_list <;> cases ho : f.is_optional <;> simp [sl]

theorem c9_unknown_base_witness :
    prisma_field_to_ts ⟨sl "x", sl "Foo", false, false, sl "x Foo"⟩ [] [] = sl "Foo" ∧
    prisma_field_to_ts_flat ⟨sl "x", sl "Foo", false, false, sl "x Foo"⟩ [] = sl "any" := by
  have h := c9_unknown_base ⟨sl "x", sl "Foo", false, false, sl "x Foo"⟩ [] []
    (by decide) (by simp) (by simp)
  simpa using h

/-- C10: under the nested policy a non-list optional field of unknown
    classification is rendered as the base joined with null, the same
    shape as an optional scalar or enum. -/
theorem c10_optional_unknown (f : FieldDef) (mns ens : List Str)
    (h1 : alookup SCALAR_TS_MAP f.type_name = none)
    (h2 : f.type_name ∉ ens) (h3 : f.type_name ∉ mns)
    (hl : f.is_list = false) (ho : f.is_optional = true) :
    prisma_field_to_ts f mns ens = f.type_name ++ sl " | null" := by
  have h := (c9_unknown_base f mns ens h1 h2 h3).1
  rw [h, hl, ho]
  simp

theorem c10_optional_unknown_witness :
    prisma_field_to_ts ⟨sl "x", sl "Foo", true, false, sl "x Foo?"⟩ [] [] =
      sl "Foo | null" := by
  exact c10_optional_unknown ⟨sl "x", sl "Foo", true, false, sl "x Foo?"⟩ [] []
    (by decide) (by simp) (by simp) rfl rfl

theorem dropWhile_head_not (p : Char → Bool) (l : Str) :
    ∀ {c : Char} {t : Str}, l.dropWhile p = c :: t → p c = false := by
  induction l with
  | nil => intro c t h; simp [List.dropWhile] at h
  | cons a rest ih =>
    intro c t h
    by_cases ha : p a
    · rw [List.dropWhile_cons_of_pos ha] at h
      exact ih h
    · rw [List.dropWhile_cons_of_neg ha] at h
      cases h
      simpa using ha

/-- The stripped line, when non-empty, starts with a non-whitespace
    character. -/
theorem pyStrip_head (l : Str) :
    ∀ {c : Char} {t : Str}, pyStrip l = c :: t → pyIsSpace c = false := by
  intro c t h
  have hA : l.dropWhile pyIsSpace =
      pyStrip l ++ ((l.dropWhile pyIsSpace).reverse.takeWhile pyIsSpace).reverse := by
    have h2 := List.takeWhile_append_dropWhile
      (p := pyIsSpace) (l := (l.dropWhile pyIsSpace).reverse)
    calc l.dropWhile pyIsSpace
        = (l.dropWhile pyIsSpace).reverse.reverse := by rw [List.reverse_reverse]
      _ = ((l.dropWhile pyIsSpace).reverse.takeWhile pyIsSpace ++
            (l.dropWhile pyIsSpace).reverse.dropWhile pyIsSpace).reverse := by rw [h2]
      _ = pyStrip l ++ ((l.dropWhile pyIsSpace).reverse.takeWhile pyIsSpace).reverse := by
            rw [List.reverse_append]; rfl
  rw [h] at hA
  exact dropWhile_head_not pyIsSpace l hA

theorem pySplitAux_ne_nil (l acc : Str) (h : acc ≠ []) : pySplitAux l acc ≠ [] := by
  induction l generalizing acc with
  | nil => simp [pySplitAux, h]
  | cons c rest ih =>
    by_cases hc : pyIsSpace c
    · simp [pySplitAux, hc, h]
    · simp only [pySplitAux, hc, if_false, Bool.false_eq_true]
      exact ih (c :: acc) (by simp)

/-- A non-empty stripped line always splits into at least one token: the
    guard before l.split()[0] in the enum body loop is sufficient. -/
theorem pySplit_pyStrip_ne_nil (raw : Str) (h : pyStrip raw ≠ []) :
    pySplit (pyStrip raw) ≠ [] := by
  cases hs : pyStrip raw with
  | nil => exact absurd hs h
  | cons c t =>
    have hc : pyIsSpace c = false := pyStrip_head raw hs
    simp only [pySplit, pySplitAux, hc, if_false, Bool.false_eq_true]
    exact pySplitAux_ne_nil t [c] (by simp)

/-- The enum-body loop never reaches its error case. -/
theorem enumValues_ok (body : List Str) : ∃ vs, enumValues body = .ok vs := by
  induction body with
  | nil => exact ⟨[], rfl⟩
  | cons raw rest ih =>
    obtain ⟨vs, hvs⟩ := ih
    unfold enumValues
    by_cases h1 : pyStrip raw = []
    · simp only [h1, if_true]
      exact ⟨vs, by simpa [h1] using hvs⟩
    · simp only [h1, if_false]
      by_cases h2 : startsW (sl "@@schema") (pyStrip raw) = true
      · simp only [h2, if_true]
        exact ⟨vs, hvs⟩
      · simp only [h2, if_false, Bool.false_eq_true]
        by_cases h3 : (startsW (sl "@") (pyStrip raw) || startsW (sl "@@") (pyStrip raw)) = true
        · simp only [h3, if_true]
          exact ⟨vs, hvs⟩
        · simp only [h3, if_false, Bool.false_eq_true]
          cases hs : pySplit (pyStrip raw) with
          | nil => exact absurd hs (pySplit_pyStrip_ne_nil raw h1)
          | cons tok ts =>
            rw [hvs]
            exact ⟨if tok = [] then vs else tok :: vs, rfl⟩

theorem collectBody_len (l : List Str) : (collectBody l).2.length ≤ l.length := by
  induction l with
  | nil => simp [collectBody]
  | cons x rest ih =>
    unfold collectBody
    by_cases h : pyStrip x = sl "\x7d"
    · simp [h]
    · simp only [h, if_false]
      simpa using Nat.le_succ_of_le ih

theorem skipToBrace_len (l : List Str) : (skipToBrace l).length ≤ l.length := by
  induction l with
  | nil => simp [skipToBrace]
  | cons x rest ih =>
    unfold skipToBrace
    by_cases h : subIn (sl "\x7b") x = true
    · simp [h]
    · simp only [h, if_false, Bool.false_eq_true]
      exact Nat.le_succ_of_le ih

/-- The main loop, run with at least as much fuel as there are lines,
    always returns successfully, and it preserves any property of the two
    accumulated maps that the two insertion shapes preserve. -/
theorem parseLoop_pres
    (P : List (Str × EnumDef) → List (Str × ModelDef) → Prop)
    (hE : ∀ e m l kind name tl body vals, P e m →
       pySplit (pyStrip l) = kind :: name :: tl → enumValues body = .ok vals →
       P (dictInsert e name ⟨name, vals⟩) m)
    (hM : ∀ e m l kind name tl body, P e m →
       pySplit (pyStrip l) = kind :: name :: tl →
       P e (dictInsert m name ⟨name, (modelBody body none).1, (modelBody body none).2⟩)) :
    ∀ fuel lines e m, lines.length ≤ fuel → P e m →
      ∃ r, parseLoop fuel lines e m = .ok r ∧ P r.1 r.2 := by
  intro fuel
  induction fuel with
  | zero =>
    intro lines e m hlen hp
    have hnil : lines = [] := List.length_eq_zero.mp (Nat.le_zero.mp hlen)
    subst hnil
    exact ⟨(e, m), rfl, hp⟩
  | succ n ih =>
    intro lines e m hlen hp
    cases lines with
    | nil => exact ⟨(e, m), rfl, hp⟩
    | cons l rest =>
      have hrest : rest.length ≤ n := by
        simp only [List.length_cons] at hlen
        omega
      by_cases hh : (startsW (sl "model ") (pyStrip l) || startsW (sl "enum ") (pyStrip l)) = true
      · cases hs : pySplit (pyStrip l) with
        | nil =>
          obtain ⟨r, hr, hpr⟩ := ih rest e m hrest hp
          exact ⟨r, by simp only [parseLoop, hh, if_true, hs]; exact hr, hpr⟩
        | cons kind tl =>
          cases tl with
          | nil =>
            obtain ⟨r, hr, hpr⟩ := ih rest e m hrest hp
            exact ⟨r, by simp only [parseLoop, hh, if_true, hs]; exact hr, hpr⟩
          | cons name tl2 =>
            have hlen1 : (if subIn (sl "\x7b") (pyStrip l) = true then rest
                else skipToBrace rest).length ≤ n := by
              split
              · exact hrest
              · exact Nat.le_trans (skipToBrace_len rest) hrest
            have hlen2 : (collectBody (if subIn (sl "\x7b") (pyStrip l) = true then rest
                else skipToBrace rest)).2.length ≤ n :=
              Nat.le_trans (collectBody_len _) hlen1
            by_cases hk : kind = sl "enum"
            · obtain ⟨vals, hv⟩ := enumValues_ok
                (collectBody (if subIn (sl "\x7b") (pyStrip l) = true then rest
                  else skipToBrace rest)).1
              obtain ⟨r, hr, hpr⟩ := ih _ (dictInsert e name ⟨name, vals⟩) m hlen2
                (hE e m l kind name tl2 (collectBody _).1 vals hp hs hv)
              refine ⟨r, ?_, hpr⟩
              simp only [parseLoop, hh, if_true, hs, hk, if_true, hv]
              exact hr
            · by_cases hk2 : kind = sl "model"
              · obtain ⟨r, hr, hpr⟩ := ih _ e
                  (dictInsert m name ⟨name,
                    (modelBody (collectBody (if subIn (sl "\x7b") (pyStrip l) = true then rest
                      else skipToBrace rest)).1 none).1,
                    (modelBody (collectBody (if subIn (sl "\x7b") (pyStrip l) = true then rest
                      else skipToBrace rest)).1 none).2⟩) hlen2
                  (hM e m l kind name tl2 (collectBody _).1 hp hs)
                refine ⟨r, ?_, hpr⟩
                simp only [parseLoop, hh, if_true, hs, hk, hk2, if_false]
                exact hr
              · obtain ⟨r, hr, hpr⟩ := ih _ e m hlen2 hp
                refine ⟨r, ?_, hpr⟩
                simp only [parseLoop, hh, if_true, hs, hk, hk2, if_false]
                exact hr
      · obtain ⟨r, hr, hpr⟩ := ih rest e m hrest hp
        refine ⟨r, ?_, hpr⟩
        simp only [parseLoop, hh, if_false, Bool.false_eq_true]
        exact hr

/-- C3: parse_prisma is total over arbitrary input text: it never returns
    a failure, and malformed input degrades to empty or degenerate
    definitions, shown on an empty enum, a model header with no brace and
    no body, and garbage text that parses to nothing. -/
theorem c3_parse_total :
    (∀ s : Str, ∃ r, parse_prisma s = .ok r) ∧
    (parse_prisma (sl "enum E \x7b\n\x7d")).toOption =
      some ([(sl "E", ⟨sl "E", []⟩)], []) ∧
    (parse_prisma (sl "model M")).toOption =
      some ([], [(sl "M", ⟨sl "M", [], none⟩)]) ∧
    (parse_prisma (sl "model\n\x7b\nxyz")).toOption = some ([], []) := by
  refine ⟨?_, by decide, by decide, by decide⟩
  intro s
  obtain ⟨r, hr, -⟩ := parseLoop_pres (fun _ _ => True)
    (by intro e m l kind name tl body vals hp hs hv; trivial)
    (by intro e m l kind name tl body hp hs; trivial)
    (pyLines (strip_line_comments s)).length (pyLines (strip_line_comments s)) [] []
    (Nat.le_refl _) trivial
  exact ⟨r, hr⟩

/-- A piece of text containing no line terminator. -/
abbrev noTerm (l : Str) : Prop := ∀ c ∈ l, c ≠ '\n' ∧ c ≠ '\r'

theorem pyLinesAux_noTerm (s : Str) :
    ∀ (acc : Str) (flag : Bool), (∀ c ∈ acc, c ≠ '\n' ∧ c ≠ '\r') →
      ∀ l ∈ pyLinesAux s acc flag, noTerm l := by
  induction s with
  | nil =>
    intro acc flag hacc l hl
    simp only [pyLinesAux] at hl
    split at hl
    · simp at hl
    · simp only [List.mem_singleton] at hl
      subst hl
      intro c hc
      exact hacc c (List.mem_reverse.mp hc)
  | cons c rest ih =>
    intro acc flag hacc l hl
    have hrev : ∀ d ∈ acc.reverse, d ≠ '\n' ∧ d ≠ '\r' := by
      intro d hd
      exact hacc d (List.mem_reverse.mp hd)
    by_cases hc : c = '\n'
    · subst hc
      cases flag with
      | true =>
        simp only [pyLinesAux, if_pos rfl, if_pos rfl] at hl
        exact ih acc false hacc l hl
      | false =>
        simp only [pyLinesAux, if_pos rfl, Bool.false_eq_true, if_neg] at hl
        rcases List.mem_cons.mp hl with h | h
        · subst h
          exact hrev
        · exact ih [] false (by simp) l h
    · by_cases hr : c = '\r'
      · subst hr
        simp only [pyLinesAux, if_neg hc, if_pos rfl] at hl
        rcases List.mem_cons.mp hl with h | h
        · subst h
          exact hrev
        · exact ih [] true (by simp) l h
      · simp only [pyLinesAux, if_neg hc, if_neg hr] at hl
        refine ih (c :: acc) false ?_ l hl
        intro d hd
        rcases List.mem_cons.mp hd with h | h
        · subst h; exact ⟨hc, hr⟩
        · exact hacc d h

/-- Every line produced by the line splitter is terminator-free. -/
theorem pyLines_noTerm (s : Str) : ∀ l ∈ pyLines s, noTerm l :=
  pyLinesAux_noTerm s [] false (by simp)

theorem beforeSub_sub (pat : Str) : ∀ l : Str, ∀ c ∈ beforeSub pat l, c ∈ l := by
  intro l
  induction l with
  | nil => simp [beforeSub]
  | cons a rest ih =>
    intro c hc
    simp only [beforeSub] at hc
    split at hc
    · simp at hc
    · rcases List.mem_cons.mp hc with h | h
      · subst h
        exact List.mem_cons_self _ _
      · exact List.mem_cons_of_mem _ (ih c h)

/-- Consuming a terminator-free chunk only shifts it into the accumulator. -/
theorem pyLinesAux_chunk (x : Str) :
    ∀ (acc rest : Str), noTerm x →
      pyLinesAux (x ++ rest) acc false = pyLinesAux rest (x.reverse ++ acc) false := by
  induction x with
  | nil => intro acc rest _; simp
  | cons c x' ih =>
    intro acc rest hx
    have hc := hx c (List.mem_cons_self c x')
    have hstep : pyLinesAux ((c :: x') ++ rest) acc false =
        pyLinesAux (x' ++ rest) (c :: acc) false := by
      simp only [List.cons_append, pyLinesAux, if_neg hc.1, if_neg hc.2]
      rfl
    rw [hstep, ih (c :: acc) rest (fun d hd => hx d (List.mem_cons_of_mem c hd))]
    simp

/-- Drop a single final empty line, the effect of rejoining split lines. -/
def dropLastEmpty (ls : List Str) : List Str :=
  if ls.getLast? = some [] then ls.dropLast else ls

/-- Splitting a newline join of terminator-free lines recovers the lines,
    except that a single final empty line is not represented. -/
theorem pyLines_joinSep (ls : List Str) (h : ∀ l ∈ ls, noTerm l) :
    pyLines (joinSep (sl "\n") ls) = dropLastEmpty ls := by
  induction ls with
  | nil => simp [joinSep, pyLines, pyLinesAux, dropLastEmpty]
  | cons x tail ih =>
    cases tail with
    | nil =>
      have hx := h x (List.mem_cons_self x [])
      show pyLines x = dropLastEmpty [x]
      rw [pyLines, show x = x ++ [] by simp, pyLinesAux_chunk x [] [] hx]
      simp only [pyLinesAux, List.append_nil, dropLastEmpty]
      cases hxe : x with
      | nil => simp
      | cons a b => simp [hxe]
    | cons y r =>
      have hx := h x (List.mem_cons_self x (y :: r))
      have htail : ∀ l ∈ y :: r, noTerm l := fun l hl => h l (List.mem_cons_of_mem x hl)
      have hjoin : joinSep (sl "\n") (x :: y :: r) =
          x ++ '\n' :: joinSep (sl "\n") (y :: r) := by
        show x ++ sl "\n" ++ joinSep (sl "\n") (y :: r) = _
        simp [sl]
      rw [pyLines, hjoin, pyLinesAux_chunk x ([]) ('\n' :: joinSep (sl "\n") (y :: r)) hx]
      simp only [pyLinesAux, if_true, List.append_nil, List.reverse_reverse,
        Bool.false_eq_true, if_false]
      rw [show pyLinesAux (joinSep (sl "\n") (y :: r)) [] false =
        pyLines (joinSep (sl "\n") (y :: r)) from rfl, ih htail]
      have hne : y :: r ≠ [] := by simp
      simp only [dropLastEmpty, List.getLast?_cons_cons]
      cases hg : (y :: r).getLast? with
      | none => simp at hg
      | some z =>
        by_cases hz : z = []
        · subst hz
          simp [hg, List.dropLast_cons_of_ne_nil hne]
        · simp [hg, hz]

/-- C7, counterexample: on an input text of a plain line then a comment-only line,
    the comment stripper does not preserve the line count: the input has
    two lines, the output one. -/
theorem c7_counterexample :
    ¬ (pyLines (strip_line_comments (sl "a\n//c"))).length =
        (pyLines (sl "a\n//c")).length := by
  decide

/-- C7, amended: strip_line_comments removes, for each input line,
    everything from the first // marker to the end of that line; rejoining
    with a newline preserves every line boundary except that a final empty
    stripped line is left unrepresented, because the join emits no trailing
    terminator. So re-splitting the output yields exactly the per-line
    stripped input lines, minus a single final empty one when the last
    stripped line is empty; the line count drops by one in that case and is
    preserved in all others. -/
theorem c7_strip_line_comments (s : Str) :
    pyLines (strip_line_comments s) =
      dropLastEmpty ((pyLines s).map (fun line =>
        if subIn (sl "//") line then beforeSub (sl "//") line else line)) := by
  have hnt : ∀ l ∈ (pyLines s).map (fun line =>
      if subIn (sl "//") line then beforeSub (sl "//") line else line), noTerm l := by
    intro l hl
    rcases List.mem_map.mp hl with ⟨orig, ho, he⟩
    have horig := pyLines_noTerm s orig ho
    subst he
    split
    · intro c hc
      exact horig c (beforeSub_sub _ orig c hc)
    · exact horig
  exact pyLines_joinSep _ hnt

/-- A token containing no whitespace character. -/
abbrev spaceFree (l : Str) : Prop := ∀ c ∈ l, pyIsSpace c = false

theorem pySplitAux_spaceFree (l : Str) :
    ∀ acc : Str, spaceFree acc → ∀ t ∈ pySplitAux l acc, spaceFree t := by
  induction l with
  | nil =>
    intro acc hacc t ht
    simp only [pySplitAux] at ht
    split at ht
    · simp at ht
    · simp only [List.mem_singleton] at ht
      subst ht
      intro c hc
      exact hacc c (List.mem_reverse.mp hc)
  | cons c rest ih =>
    intro acc hacc t ht
    simp only [pySplitAux] at ht
    by_cases hc : pyIsSpace c = true
    · rw [if_pos hc] at ht
      split at ht
      · exact ih [] (by simp [spaceFree]) t ht
      · rcases List.mem_cons.mp ht with h | h
        · subst h
          intro d hd
          exact hacc d (List.mem_reverse.mp hd)
        · exact ih [] (by simp [spaceFree]) t h
    · rw [if_neg hc] at ht
      refine ih (c :: acc) ?_ t ht
      intro d hd
      rcases List.mem_cons.mp hd with h | h
      · subst h
        exact Bool.not_eq_true _ ▸ hc
      · exact hacc d h

/-- Every token returned by the whitespace splitter is whitespace-free. -/
theorem pySplit_spaceFree (l : Str) : ∀ t ∈ pySplit l, spaceFree t :=
  pySplitAux_spaceFree l [] (by simp [spaceFree])

theorem startsW_exists (p : Str) :
    ∀ l : Str, startsW p l = true → ∃ r, l = p ++ r := by
  induction p with
  | nil => intro l _; exact ⟨l, rfl⟩
  | cons a p' ih =>
    intro l h
    cases l with
    | nil => simp [startsW] at h
    | cons b l' =>
      simp only [startsW, Bool.and_eq_true, beq_iff_eq] at h
      obtain ⟨r, hr⟩ := ih l' h.2
      exact ⟨r, by rw [h.1, hr]; rfl⟩

theorem endsW_one (x : Char) (t : Str) (h : endsW [x] t = true) :
    t.dropLast ++ [x] = t := by
  obtain ⟨r, hr⟩ := startsW_exists [x] t.reverse h
  have ht : t = r.reverse ++ [x] := by
    have := congrArg List.reverse hr
    simpa using this
  rw [ht, List.dropLast_concat]

theorem endsW_two (a b : Char) (t : Str) (h : endsW [a, b] t = true) :
    t.dropLast.dropLast ++ [a, b] = t := by
  obtain ⟨r, hr⟩ := startsW_exists [b, a] t.reverse h
  have ht : t = r.reverse ++ [a, b] := by
    have := congrArg List.reverse hr
    simpa using this
  have h1 : t.dropLast = r.reverse ++ [a] := by
    rw [ht, show r.reverse ++ [a, b] = (r.reverse ++ [a]) ++ [b] by simp,
      List.dropLast_concat]
  rw [h1, List.dropLast_concat, ht]

theorem mem_dictInsert {α : Type} (d : List (Str × α)) (k : Str) (v : α) :
    ∀ p ∈ dictInsert d k v, p = (k, v) ∨ p ∈ d := by
  induction d with
  | nil => simp [dictInsert]
  | cons q rest ih =>
    intro p hp
    simp only [dictInsert] at hp
    split at hp
    · rcases List.mem_cons.mp hp with h | h
      · exact Or.inl h
      · exact Or.inr (List.mem_cons_of_mem q h)
    · rcases List.mem_cons.mp hp with h | h
      · exact Or.inr (h ▸ List.mem_cons_self q rest)
      · rcases ih p h with h2 | h2
        · exact Or.inl h2
        · exact Or.inr (List.mem_cons_of_mem q h2)

/-- What the parser guarantees for each produced field: the name and the
    stored base type are whitespace-free, and the stored base type plus the
    recorded modifier suffixes reassemble the raw type token, the second
    token of the field's stripped line. -/
def fieldInv (f : FieldDef) : Prop :=
  spaceFree f.name ∧ spaceFree f.type_name ∧
  ∃ rest, pySplit f.raw_line =
    f.name :: (f.type_name ++ (if f.is_list = true then sl "[]" else []) ++
      (if f.is_optional = true then sl "?" else [])) :: rest

/-- The token reassembly behind the trailing-modifier decomposition. -/
theorem decomposition_token (ttok raw_type base : Str)
    (hr : raw_type = if endsW (sl "?") ttok = true then ttok.dropLast else ttok)
    (hb : base = if endsW (sl "[]") raw_type = true
      then raw_type.dropLast.dropLast else raw_type) :
    base ++ (if endsW (sl "[]") raw_type = true then sl "[]" else []) ++
      (if endsW (sl "?") ttok = true then sl "?" else []) = ttok := by
  by_cases hopt : endsW (sl "?") ttok = true
  · rw [if_pos hopt] at hr
    rw [if_pos hopt]
    have h1 : ttok.dropLast ++ sl "?" = ttok := endsW_one '?' ttok hopt
    by_cases hlst : endsW (sl "[]") raw_type = true
    · rw [if_pos hlst] at hb
      rw [if_pos hlst]
      have h2 : raw_type.dropLast.dropLast ++ sl "[]" = raw_type :=
        endsW_two '[' ']' raw_type hlst
      rw [hb, h2, hr, h1]
    · rw [if_neg hlst] at hb
      rw [if_neg hlst]
      rw [hb, List.append_nil, hr, h1]
  · rw [if_neg hopt] at hr
    rw [if_neg hopt]
    by_cases hlst : endsW (sl "[]") raw_type = true
    · rw [if_pos hlst] at hb
      rw [if_pos hlst]
      have h2 : raw_type.dropLast.dropLast ++ sl "[]" = raw_type :=
        endsW_two '[' ']' raw_type hlst
      rw [List.append_nil, hb, h2, hr]
    · rw [if_neg hlst] at hb
      rw [if_neg hlst]
      rw [List.append_nil, List.append_nil, hb, hr]

/-- Every field built by the model-body loop satisfies the field invariant. -/
theorem modelBody_fields (body : List Str) :
    ∀ sch : Option Str, ∀ f ∈ (modelBody body sch).1, fieldInv f := by
  induction body with
  | nil =>
    intro sch f hf
    simp [modelBody] at hf
  | cons raw rest ih =>
    intro sch f hf
    simp only [modelBody] at hf
    by_cases h1 : pyStrip raw = []
    · rw [if_pos h1] at hf
      exact ih sch f hf
    · rw [if_neg h1] at hf
      by_cases h2 : startsW (sl "@@schema") (pyStrip raw) = true
      · rw [if_pos h2] at hf
        exact ih _ f hf
      · rw [if_neg h2] at hf
        by_cases h3 : (startsW (sl "@") (pyStrip raw) || startsW (sl "@@") (pyStrip raw)) = true
        · rw [if_pos h3] at hf
          exact ih sch f hf
        · rw [if_neg h3] at hf
          cases hs : pySplit (pyStrip raw) with
          | nil =>
            rw [hs] at hf
            exact ih sch f hf
          | cons fname tl =>
            cases tl with
            | nil =>
              rw [hs] at hf
              exact ih sch f hf
            | cons ttok tl2 =>
              rw [hs] at hf
              simp only [List.mem_cons] at hf
              rcases hf with hfe | hfm
              · subst hfe
                have hfn : spaceFree fname :=
                  pySplit_spaceFree (pyStrip raw) fname (by rw [hs]; exact List.mem_cons_self _ _)
                have htk : spaceFree ttok :=
                  pySplit_spaceFree (pyStrip raw) ttok
                    (by rw [hs]; exact List.mem_cons_of_mem _ (List.mem_cons_self _ _))
                have hrec := decomposition_token ttok _ _ rfl rfl
                refine ⟨hfn, ?_, tl2, ?_⟩
                · intro c hc
                  refine htk c ?_
                  rw [← hrec]
                  simp only [List.append_assoc, List.mem_append]
                  exact Or.inl hc
                · show pySplit (pyStrip raw) = _
                  rw [hs, hrec]
              · exact ih sch f hfm

/-- Every value collected by the enum-body loop is a whitespace-free token. -/
theorem enumValues_spaceFree (body : List Str) :
    ∀ vs, enumValues body = .ok vs → ∀ v ∈ vs, spaceFree v := by
  induction body with
  | nil =>
    intro vs h v hv
    simp only [enumValues] at h
    cases h
    simp at hv
  | cons raw rest ih =>
    intro vs h v hv
    simp only [enumValues] at h
    by_cases h1 : pyStrip raw = []
    · rw [if_pos h1] at h
      exact ih vs h v hv
    · rw [if_neg h1] at h
      by_cases h2 : startsW (sl "@@schema") (pyStrip raw) = true
      · rw [if_pos h2] at h
        exact ih vs h v hv
      · rw [if_neg h2] at h
        by_cases h3 : (startsW (sl "@") (pyStrip raw) || startsW (sl "@@") (pyStrip raw)) = true
        · rw [if_pos h3] at h
          exact ih vs h v hv
        · rw [if_neg h3] at h
          cases hs : pySplit (pyStrip raw) with
          | nil =>
            rw [hs] at h
            cases h
          | cons token ts =>
            rw [hs] at h
            cases hrec : enumValues rest with
            | error e => rw [hrec] at h; cases h
            | ok ws =>
              rw [hrec] at h
              cases h
              have htok : spaceFree token :=
                pySplit_spaceFree (pyStrip raw) token
                  (by rw [hs]; exact List.mem_cons_self _ _)
              by_cases hte : token = []
              · rw [if_pos hte] at hv
                exact ih ws hrec v hv
              · rw [if_neg hte] at hv
                rcases List.mem_cons.mp hv with h | h
                · subst h; exact htok
                · exact ih ws hrec v h

/-- The joint invariant of the two maps the parser builds: every entry is
    keyed by its definition's own name, names and enum values are
    whitespace-free tokens, and every field satisfies the field invariant. -/
def parseInv (e : List (Str × EnumDef)) (m : List (Str × ModelDef)) : Prop :=
  (∀ p ∈ e, p.1 = p.2.name ∧ spaceFree p.2.name ∧ ∀ v ∈ p.2.values, spaceFree v) ∧
  (∀ p ∈ m, p.1 = p.2.name ∧ spaceFree p.2.name ∧ ∀ f ∈ p.2.fields, fieldInv f)

/-- Every successful parse satisfies the parse invariant. -/
theorem parse_inv (s : Str) (e : List (Str × EnumDef)) (m : List (Str × ModelDef))
    (h : parse_prisma s = .ok (e, m)) : parseInv e m := by
  have hstep := parseLoop_pres parseInv
    (by
      intro e' m' l kind name tl body vals hp hs hv
      constructor
      · intro p hp2
        rcases mem_dictInsert e' name ⟨name, vals⟩ p hp2 with h2 | h2
        · subst h2
          refine ⟨rfl, ?_, ?_⟩
          · exact pySplit_spaceFree (pyStrip l) name
              (by rw [hs]; exact List.mem_cons_of_mem _ (List.mem_cons_self _ _))
          · exact enumValues_spaceFree body vals hv
        · exact hp.1 p h2
      · exact hp.2)
    (by
      intro e' m' l kind name tl body hp hs
      constructor
      · exact hp.1
      · intro p hp2
        rcases mem_dictInsert m' name _ p hp2 with h2 | h2
        · subst h2
          refine ⟨rfl, ?_, ?_⟩
          · exact pySplit_spaceFree (pyStrip l) name
              (by rw [hs]; exact List.mem_cons_of_mem _ (List.mem_cons_self _ _))
          · exact modelBody_fields body none
        · exact hp.2 p h2)
    (pyLines (strip_line_comments s)).length (pyLines (strip_line_comments s)) [] []
    (Nat.le_refl _) ⟨by simp, by simp⟩
  obtain ⟨r, hr, hpr⟩ := hstep
  have : Except.ok (ε := String) r = .ok (e, m) := by
    rw [← hr]
    exact h
  cases this
  exact hpr

/-- C5, counterexample: on a field line with stacked modifiers (f Foo??,
    g Foo[][]), the parser stores a typeName that still contains a question
    mark or a bracket pair, because only one trailing ? and then one
    trailing [] are stripped. -/
theorem c5_counterexample :
    ((modelsOf (parse_prisma (sl "model M \x7b\n f Foo??\n g Foo[][]\n\x7d"))).any
      (fun p => p.2.fields.any (fun f =>
        subIn (sl "?") f.type_name || subIn (sl "[]") f.type_name))) = true := by
  decide

/-- C5, amended: for every field produced by the parser, the stored
    typeName is a whitespace-free token, and it reassembles the raw type
    token of its line exactly: the second token of the recorded line is
    typeName followed by the bracket suffix when isList is set and then
    the question-mark suffix when isOptional is set. Exactly one trailing
    question mark and then one trailing bracket pair are stripped, so a
    typeName may still contain a question mark or bracket pair coming from
    stacked or inner modifiers. -/
theorem c5_type_name_decomposition (s : Str) (e : List (Str × EnumDef))
    (m : List (Str × ModelDef)) (h : parse_prisma s = .ok (e, m)) :
    ∀ p ∈ m, ∀ f ∈ p.2.fields,
      spaceFree f.type_name ∧
      ∃ rest, pySplit f.raw_line =
        f.name :: (f.type_name ++ (if f.is_list = true then sl "[]" else []) ++
          (if f.is_optional = true then sl "?" else [])) :: rest := by
  intro p hp f hf
  have hinv := (parse_inv s e m h).2 p hp
  exact ⟨(hinv.2.2 f hf).2.1, (hinv.2.2 f hf).2.2⟩

theorem c5_type_name_decomposition_witness :
    spaceFree (sl "Foo?") ∧
    ∃ rest, pySplit (sl "f Foo??") =
      sl "f" :: (sl "Foo?" ++ (if (false : Bool) = true then sl "[]" else []) ++
        (if (true : Bool) = true then sl "?" else [])) :: rest := by
  have h := c5_type_name_decomposition (sl "model M \x7b\n f Foo??\n\x7d") []
    [(sl "M", ⟨sl "M", [⟨sl "f", sl "Foo?", true, false, sl "f Foo??"⟩], none⟩)]
    rfl
    (sl "M", ⟨sl "M", [⟨sl "f", sl "Foo?", true, false, sl "f Foo??"⟩], none⟩)
    (List.mem_cons_self _ _)
    ⟨sl "f", sl "Foo?", true, false, sl "f Foo??"⟩
    (List.mem_cons_self _ _)
  exact h

/-- A skip-or-emit loop is a filter followed by a map. -/
theorem catMap_if_filter {α β : Type} (p : α → Prop) [DecidablePred p] (g : α → List β)
    (l : List α) :
    catMap (fun x => if p x then [] else g x) l =
      catMap g (l.filter (fun x => decide (¬ p x))) := by
  induction l with
  | nil => rfl
  | cons a rest ih =>
    by_cases h : p a <;> simp [catMap, List.filter_cons, h, ih]

/-- The schema text of the flat-projection example. -/
def c8text : Str :=
  sl "model Post \x7b\n  id String\n  author User\n\x7d\nmodel User \x7b\n\x7d"

/-- C8: the flat interface of a model emits exactly the fields whose base
    type is not a declared model name, in declaration order (a filter of
    the field list); concretely, for model Post with a scalar id and a
    relation author to the declared model User, the emitted block contains
    the id member and no author member in its flat variant. -/
theorem c8_flat_omission :
    (∀ (mns ens : List Str) (md : ModelDef),
      flatFieldLines mns ens md =
        (md.fields.filter (fun f => decide (¬ f.type_name ∈ mns))).map
          (fieldLineFlat ens)) ∧
    (modelsOf (parse_prisma c8text)).map (·.1) = [sl "Post", sl "User"] ∧
    (alookup (modelsOf (parse_prisma c8text)) (sl "Post")).map
      (fun md => modelBlock [sl "Post", sl "User"] [] true md) =
      some [sl "export interface Post \x7b",
            sl "  id: string;",
            sl "  author: User | null;",
            sl "\x7d", [],
            sl "export interface PostFlat \x7b",
            sl "  id: string;",
            sl "\x7d", []] := by
  refine ⟨?_, by decide, by decide⟩
  intro mns ens md
  have h := catMap_if_filter (fun f : FieldDef => f.type_name ∈ mns)
    (fun f => [fieldLineFlat ens f]) md.fields
  calc flatFieldLines mns ens md
      = catMap (fun f => [fieldLineFlat ens f])
          (md.fields.filter (fun f => decide (¬ f.type_name ∈ mns))) := h
    _ = (md.fields.filter (fun f => decide (¬ f.type_name ∈ mns))).map
          (fieldLineFlat ens) := by
        generalize md.fields.filter (fun f => decide (¬ f.type_name ∈ mns)) = fs
        induction fs with
        | nil => rfl
        | cons a rest ih => simp [catMap, ih]

theorem lexLe_total (a : Str) : ∀ b : Str, lexLe a b = true ∨ lexLe b a = true := by
  induction a with
  | nil => intro b; exact Or.inl rfl
  | cons x s ih =>
    intro b
    cases b with
    | nil => exact Or.inr rfl
    | cons y t =>
      by_cases h1 : x.toNat < y.toNat
      · exact Or.inl (by simp [lexLe, h1])
      · by_cases h2 : y.toNat < x.toNat
        · exact Or.inr (by simp [lexLe, h2])
        · rcases ih t with h | h
          · exact Or.inl (by simp [lexLe, h1, h2, h])
          · exact Or.inr (by simp [lexLe, h1, h2, h])

theorem mem_insSorted (x : Str) (l : List Str) :
    ∀ y, y ∈ insSorted x l ↔ y = x ∨ y ∈ l := by
  induction l with
  | nil => intro y; simp [insSorted]
  | cons a rest ih =>
    intro y
    simp only [insSorted]
    split
    · simp [List.mem_cons]
    · simp only [List.mem_cons, ih y]
      tauto

theorem sortedB_insSorted (x : Str) (l : List Str) (h : sortedB l = true) :
    sortedB (insSorted x l) = true := by
  induction l with
  | nil => simp [insSorted, sortedB]
  | cons a rest ih =>
    simp only [insSorted]
    by_cases hxa : lexLe x a = true
    · rw [if_pos hxa]
      simp only [sortedB, Bool.and_eq_true]
      exact ⟨hxa, h⟩
    · rw [if_neg hxa]
      have hax : lexLe a x = true := by
        rcases lexLe_total x a with h2 | h2
        · exact absurd h2 hxa
        · exact h2
      cases rest with
      | nil => simp [insSorted, sortedB, hax]
      | cons b r2 =>
        have hsub : sortedB (b :: r2) = true := by
          simp only [sortedB, Bool.and_eq_true] at h
          exact h.2
        have hab : lexLe a b = true := by
          simp only [sortedB, Bool.and_eq_true] at h
          exact h.1
        have hrec := ih hsub
        simp only [insSorted] at hrec ⊢
        by_cases hxb : lexLe x b = true
        · rw [if_pos hxb] at hrec ⊢
          simp only [sortedB, Bool.and_eq_true] at hrec ⊢
          exact ⟨hax, hrec⟩
        · rw [if_neg hxb] at hrec ⊢
          simp only [sortedB, Bool.and_eq_true] at hrec ⊢
          exact ⟨hab, hrec⟩

theorem mem_sortStr (l : List Str) : ∀ y, y ∈ sortStr l ↔ y ∈ l := by
  induction l with
  | nil => intro y; simp [sortStr]
  | cons a rest ih =>
    intro y
    show y ∈ insSorted a (sortStr rest) ↔ _
    rw [mem_insSorted a (sortStr rest) y, ih y]
    simp [List.mem_cons]

theorem sortedB_sortStr (l : List Str) : sortedB (sortStr l) = true := by
  induction l with
  | nil => rfl
  | cons a rest ih => exact sortedB_insSorted a (sortStr rest) ih

theorem foldl_pres {α β : Type} (P : α → Prop) (step : α → β → α)
    (hstep : ∀ a x, P a → P (step a x)) :
    ∀ (l : List β) (a : α), P a → P (List.foldl step a l) := by
  intro l
  induction l with
  | nil => intro a ha; exact ha
  | cons x rest ih => intro a ha; exact ih (step a x) (hstep a x ha)

theorem foldl_estab {α β : Type} (P : α → Prop) (step : α → β → α) (x : β)
    (hx : ∀ a, P (step a x)) (hstep : ∀ a y, P a → P (step a y)) :
    ∀ (l : List β) (a : α), x ∈ l → P (List.foldl step a l) := by
  intro l
  induction l with
  | nil => intro a h; simp at h
  | cons z rest ih =>
    intro a h
    rcases List.mem_cons.mp h with h2 | h2
    · subst h2
      exact foldl_pres P step hstep rest (step a x) (hx a)
    · exact ih (step a z) h2

theorem foldl_keeps {α β : Type} (step : α → β → α) (z : α) :
    ∀ l : List β, (∀ x ∈ l, step z x = z) → List.foldl step z l = z := by
  intro l
  induction l with
  | nil => intro _; rfl
  | cons x rest ih =>
    intro h
    rw [List.foldl_cons, h x (List.mem_cons_self _ _)]
    exact ih (fun y hy => h y (List.mem_cons_of_mem x hy))

theorem addCross_estab (k v : Str) :
    ∀ acc : List (Str × List Str), ∃ ns, (k, ns) ∈ addCross acc k v ∧ v ∈ ns := by
  intro acc
  induction acc with
  | nil => exact ⟨[v], by simp [addCross]⟩
  | cons q rest ih =>
    obtain ⟨qk, qvs⟩ := q
    simp only [addCross]
    by_cases hk : qk = k
    · subst hk
      rw [if_pos rfl]
      refine ⟨if v ∈ qvs then qvs else qvs ++ [v], List.mem_cons_self _ _, ?_⟩
      split
      · assumption
      · simp
    · obtain ⟨ns, hns, hv⟩ := ih
      refine ⟨ns, ?_, hv⟩
      rw [if_neg hk]
      exact List.mem_cons_of_mem _ hns

theorem addCross_mono (k v k2 v2 : Str) :
    ∀ (acc : List (Str × List Str)) (ns : List Str), (k, ns) ∈ acc → v ∈ ns →
      ∃ ns2, (k, ns2) ∈ addCross acc k2 v2 ∧ v ∈ ns2 := by
  intro acc
  induction acc with
  | nil => intro ns h _; simp at h
  | cons q rest ih =>
    obtain ⟨qk, qvs⟩ := q
    intro ns h hv
    simp only [addCross]
    by_cases hk : qk = k2
    · subst hk
      rw [if_pos rfl]
      rcases List.mem_cons.mp h with h2 | h2
      · have hkq : k = qk := congrArg Prod.fst h2
        have hnq : ns = qvs := congrArg Prod.snd h2
        subst hkq
        subst hnq
        refine ⟨if v2 ∈ ns then ns else ns ++ [v2], List.mem_cons_self _ _, ?_⟩
        split
        · exact hv
        · exact List.mem_append_left _ hv
      · exact ⟨ns, List.mem_cons_of_mem _ h2, hv⟩
    · rw [if_neg hk]
      rcases List.mem_cons.mp h with h2 | h2
      · exact ⟨ns, h2 ▸ List.mem_cons_self _ _, hv⟩
      · obtain ⟨ns2, hns2, hv2⟩ := ih ns h2 hv
        exact ⟨ns2, List.mem_cons_of_mem _ hns2, hv2⟩

/-- The accumulated cross-import table of a partition contains, for every
    field of one of its models whose base type is a model of a different
    partition, that base type under the other partition's name. -/
theorem crossImportsOf_mem (mns : List Str) (m2s : List (Str × Str)) (sname : Str)
    (sms : List ModelDef) (md : ModelDef) (f : FieldDef) (y : Str)
    (hmd : md ∈ sms) (hf : f ∈ md.fields) (htn : f.type_name ∈ mns)
    (hy : alookup m2s f.type_name = some y) (hne : y ≠ sname) :
    ∃ ns, (y, ns) ∈ crossImportsOf mns m2s sname sms ∧ f.type_name ∈ ns := by
  have hstep_tn : ∀ acc, ∃ ns, (y, ns) ∈ crossStep mns m2s sname acc f ∧ f.type_name ∈ ns := by
    intro acc
    unfold crossStep
    rw [if_pos htn, hy]
    simp only [Option.getD_some]
    rw [if_neg hne]
    exact addCross_estab y f.type_name acc
  have hmono : ∀ acc g, (∃ ns, (y, ns) ∈ acc ∧ f.type_name ∈ ns) →
      ∃ ns, (y, ns) ∈ crossStep mns m2s sname acc g ∧ f.type_name ∈ ns := by
    intro acc g hex
    obtain ⟨ns, hns, hv⟩ := hex
    unfold crossStep
    by_cases hg : g.type_name ∈ mns
    · rw [if_pos hg]
      by_cases ho : (alookup m2s g.type_name).getD sname = sname
      · rw [if_pos ho]
        exact ⟨ns, hns, hv⟩
      · rw [if_neg ho]
        exact addCross_mono y f.type_name _ _ acc ns hns hv
    · rw [if_neg hg]
      exact ⟨ns, hns, hv⟩
  have houter_estab : ∀ acc,
      ∃ ns, (y, ns) ∈ List.foldl (crossStep mns m2s sname) acc md.fields ∧ f.type_name ∈ ns := by
    intro acc
    exact foldl_estab (fun a => ∃ ns, (y, ns) ∈ a ∧ f.type_name ∈ ns)
      (crossStep mns m2s sname) f (fun a => hstep_tn a) (fun a g h => hmono a g h)
      md.fields acc hf
  exact foldl_estab (fun a => ∃ ns, (y, ns) ∈ a ∧ f.type_name ∈ ns)
    (fun acc m2 => List.foldl (crossStep mns m2s sname) acc m2.fields) md
    (fun a => houter_estab a)
    (fun a m2 h => foldl_pres _ _ (fun a2 g h2 => hmono a2 g h2) m2.fields a h)
    sms [] hmd

theorem catMap_mem {α β : Type} (g : α → List β) (l : List α) (a : α) (b : β)
    (ha : a ∈ l) (hb : b ∈ g a) : b ∈ catMap g l := by
  induction l with
  | nil => simp at ha
  | cons x rest ih =>
    rcases List.mem_cons.mp ha with h | h
    · subst h
      exact List.mem_append_left _ hb
    · exact List.mem_append_right _ (ih h)

/-- The schema text of the partition-import example: model A in partition
    x with a relation to model B in partition y. -/
def c2text : Str :=
  sl "model A \x7b\n  b B\n  @@schema(\"x\")\n\x7d\nmodel B \x7b\n  @@schema(\"y\")\n\x7d"

def c2fieldB : FieldDef := ⟨sl "b", sl "B", false, false, sl "b B"⟩

def c2mdA : ModelDef := ⟨sl "A", [c2fieldB], some (sl "x")⟩

def c2mdB : ModelDef := ⟨sl "B", [], some (sl "y")⟩

def c2models : List (Str × ModelDef) := [(sl "A", c2mdA), (sl "B", c2mdB)]

def c2files : List (Str × Str) :=
  generate_split_files (enumsOf (parse_prisma c2text)) (modelsOf (parse_prisma c2text))
    false false

/-- C2: in the split output, every field of a model of partition x whose
    base type is a declared model assigned to a different partition y makes
    partition x's artifact contain an import of that model name from
    partition y's models artifact, with the imported names of the statement
    sorted lexicographically; a partition none of whose fields reference a
    model of another partition accumulates an empty cross-import table and
    so emits no cross-partition import; concretely, for model A in x with a
    field of type B and model B in y with no fields, the x artifact is
    exactly the text importing B from ../y/models and the y artifact is
    exactly the text with no import of A. -/
theorem c2_cross_partition_imports :
    (∀ (enums : List (Str × EnumDef)) (models : List (Str × ModelDef)) (gf : Bool)
       (x : Str) (xms : List ModelDef) (md : ModelDef) (f : FieldDef) (y : Str),
       (x, xms) ∈ models_by_schema models → md ∈ xms → f ∈ md.fields →
       f.type_name ∈ models.map (·.1) →
       alookup (model_to_schema (models_by_schema models)) f.type_name = some y →
       y ≠ x →
       ∃ ns, f.type_name ∈ ns ∧ sortedB ns = true ∧
         mkImportLine y ns ∈ schemaFileLines enums models gf x xms) ∧
    (∀ (mns : List Str) (m2s : List (Str × Str)) (sname : Str) (sms : List ModelDef),
       (∀ md ∈ sms, ∀ f ∈ md.fields,
         ¬(f.type_name ∈ mns ∧ (alookup m2s f.type_name).getD sname ≠ sname)) →
       crossImportsOf mns m2s sname sms = []) ∧
    modelsOf (parse_prisma c2text) = c2models ∧
    alookup c2files (sl "x/models.ts") =
      some (sl "// Auto-generated by Prisma TypeTags\n// Types for schema: x\nimport type \x7b DateTimeString, JsonValue \x7d from \"../common/base\";\n\nimport type \x7b B \x7d from \"../y/models\";\n\nexport interface A \x7b\n  b: B | null;\n\x7d\n") ∧
    alookup c2files (sl "y/models.ts") =
      some (sl "// Auto-generated by Prisma TypeTags\n// Types for schema: y\nimport type \x7b DateTimeString, JsonValue \x7d from \"../common/base\";\n\nexport interface B \x7b\n\x7d\n") := by
  refine ⟨?_, ?_, by decide, by decide, by decide⟩
  · intro enums models gf x xms md f y hbucket hmd hf htn hy hne
    obtain ⟨ns, hns, hv⟩ := crossImportsOf_mem (models.map (·.1))
      (model_to_schema (models_by_schema models)) x xms md f y hmd hf htn hy hne
    refine ⟨sortStr ns, (mem_sortStr ns f.type_name).mpr hv, sortedB_sortStr ns, ?_⟩
    have hline : mkImportLine y (sortStr ns) ∈
        crossImportLines (crossImportsOf (models.map (·.1))
          (model_to_schema (models_by_schema models)) x xms) := by
      apply catMap_mem _ _ (y, ns) _ hns
      rw [if_neg (show ¬ ns = [] from fun he => by rw [he] at hv; simp at hv)]
      exact List.mem_singleton.mpr rfl
    simp only [schemaFileLines, List.mem_append]
    simp [hline]
  · intro mns m2s sname sms hno
    apply foldl_keeps
    intro md hmd
    apply foldl_keeps
    intro f hf
    have hnf := hno md hmd f hf
    unfold crossStep
    by_cases htn : f.type_name ∈ mns
    · rw [if_pos htn]
      by_cases ho : (alookup m2s f.type_name).getD sname = sname
      · rw [if_pos ho]
      · exact absurd ⟨htn, ho⟩ hnf
    · rw [if_neg htn]

theorem c2_cross_partition_imports_witness :
    (∃ ns, sl "B" ∈ ns ∧ sortedB ns = true ∧
      mkImportLine (sl "y") ns ∈ schemaFileLines [] c2models false (sl "x") [c2mdA]) ∧
    crossImportsOf [sl "B"] [] (sl "z") [] = [] := by
  constructor
  · exact c2_cross_partition_imports.1 [] c2models false (sl "x") [c2mdA] c2mdA
      c2fieldB (sl "y") (by decide) (by decide) (by decide) (by decide) (by decide)
      (by decide)
  · exact c2_cross_partition_imports.2.1 [sl "B"] [] (sl "z") []
      (by intro md hmd; simp at hmd)

/-- Re-parsing of the generated artifact's declaration identifiers: a line
    declaring a type or an interface yields the identifier that follows the
    keyword, every other line yields nothing. -/
def extractOne (l : Str) : List Str :=
  if startsW (sl "export type ") l then [(l.drop 12).takeWhile (fun c => !(c == ' '))]
  else if startsW (sl "export interface ") l then
    [(l.drop 17).takeWhile (fun c => !(c == ' '))]
  else []

/-- The declaration identifiers of an artifact's lines, in order. -/
abbrev extractDecls (lines : List Str) : List Str := catMap extractOne lines

theorem catMap_append {α β : Type} (g : α → List β) (A B : List α) :
    catMap g (A ++ B) = catMap g A ++ catMap g B := by
  induction A with
  | nil => rfl
  | cons a rest ih => simp [catMap, ih]

theorem extractDecls_nil_of (L : List Str) (h : ∀ l ∈ L, extractOne l = []) :
    extractDecls L = [] := by
  induction L with
  | nil => rfl
  | cons x rest ih =>
    show extractOne x ++ extractDecls rest = []
    rw [h x (List.mem_cons_self _ _), ih (fun l hl => h l (List.mem_cons_of_mem x hl))]
    rfl

theorem extractDecls_dropLastEmpty (L : List Str) :
    extractDecls (dropLastEmpty L) = extractDecls L := by
  induction L with
  | nil => rfl
  | cons x rest ih =>
    cases rest with
    | nil =>
      show extractDecls (dropLastEmpty [x]) = extractDecls [x]
      unfold dropLastEmpty
      by_cases hx : x = []
      · subst hx
        simp only [List.getLast?_singleton, if_pos rfl, List.dropLast_single]
        rfl
      · rw [if_neg (by simpa using hx)]
    | cons y r =>
      unfold dropLastEmpty at ih ⊢
      rw [List.getLast?_cons_cons]
      by_cases hg : (y :: r).getLast? = some []
      · rw [if_pos hg]
        rw [if_pos hg] at ih
        show extractOne x ++ extractDecls ((y :: r).dropLast) =
          extractOne x ++ extractDecls (y :: r)
        rw [ih]
      · rw [if_neg hg]

theorem startsW_append_self (p : Str) : ∀ r : Str, startsW p (p ++ r) = true := by
  induction p with
  | nil => intro r; rfl
  | cons a ps ih =>
    intro r
    simp only [List.cons_append, startsW, Bool.and_eq_true, beq_self_eq_true, true_and]
    exact ih r

theorem takeWhile_token (name : Str) (h : spaceFree name) :
    ∀ r : Str, (name ++ ' ' :: r).takeWhile (fun c => !(c == ' ')) = name := by
  induction name with
  | nil => intro r; simp [List.takeWhile]
  | cons a rest ih =>
    intro r
    have ha : (a == ' ') = false := by
      by_cases he : a = ' '
      · subst he
        have := h ' ' (List.mem_cons_self _ _)
        simp [pyIsSpace] at this
      · exact beq_eq_false_iff_ne.mpr he
    simp only [List.cons_append, List.takeWhile_cons, ha, Bool.not_false, if_true]
    rw [ih (fun c hc => h c (List.mem_cons_of_mem a hc)) r]

theorem extractOne_type (name : Str) (h : spaceFree name) (r : Str) :
    extractOne (sl "export type " ++ (name ++ ' ' :: r)) = [name] := by
  unfold extractOne
  rw [if_pos (startsW_append_self (sl "export type ") (name ++ ' ' :: r))]
  have hd : (sl "export type " ++ (name ++ ' ' :: r)).drop 12 = name ++ ' ' :: r := by
    have : 12 = (sl "export type ").length := rfl
    rw [this, List.drop_left]
  rw [hd, takeWhile_token name h r]

theorem extractOne_interface (name : Str) (h : spaceFree name) (r : Str) :
    extractOne (sl "export interface " ++ (name ++ ' ' :: r)) = [name] := by
  unfold extractOne
  rw [show startsW (sl "export type ") (sl "export interface " ++ (name ++ ' ' :: r)) =
    false from rfl]
  simp only [Bool.false_eq_true, if_false]
  rw [if_pos (startsW_append_self (sl "export interface ") (name ++ ' ' :: r))]
  have hd : (sl "export interface " ++ (name ++ ' ' :: r)).drop 17 = name ++ ' ' :: r := by
    have : 17 = (sl "export interface ").length := rfl
    rw [this, List.drop_left]
  rw [hd, takeWhile_token name h r]

theorem extractOne_space (r : Str) : extractOne (' ' :: r) = [] := rfl

theorem extractOne_nil : extractOne [] = [] := rfl

theorem spaceFree_noTerm (l : Str) (h : spaceFree l) : noTerm l := by
  intro c hc
  have hcf := h c hc
  constructor
  · intro he
    subst he
    simp [pyIsSpace] at hcf
  · intro he
    subst he
    simp [pyIsSpace] at hcf

theorem noTerm_append (a b : Str) (ha : noTerm a) (hb : noTerm b) : noTerm (a ++ b) := by
  intro c hc
  rcases List.mem_append.mp hc with h | h
  · exact ha c h
  · exact hb c h

theorem alookup_mem {α : Type} (d : List (Str × α)) (k : Str) (v : α) :
    alookup d k = some v → (k, v) ∈ d := by
  induction d with
  | nil => intro h; simp [alookup] at h
  | cons q rest ih =>
    obtain ⟨qk, qv⟩ := q
    intro h
    simp only [alookup] at h
    by_cases hk : qk = k
    · rw [if_pos hk] at h
      cases h
      rw [← hk]
      exact List.mem_cons_self _ _
    · rw [if_neg hk] at h
      exact List.mem_cons_of_mem _ (ih h)

theorem scalar_values_noTerm : ∀ p ∈ SCALAR_TS_MAP, noTerm p.2 := by
  decide

theorem mem_catMap {α β : Type} (g : α → List β) (l : List α) (b : β) :
    b ∈ catMap g l ↔ ∃ a ∈ l, b ∈ g a := by
  induction l with
  | nil => simp [catMap]
  | cons x rest ih =>
    simp only [catMap, List.mem_append, ih, List.mem_cons]
    constructor
    · rintro (h | ⟨a, ha, hb⟩)
      · exact ⟨x, Or.inl rfl, h⟩
      · exact ⟨a, Or.inr ha, hb⟩
    · rintro ⟨a, ha | ha, hb⟩
      · subst ha
        exact Or.inl hb
      · exact Or.inr ⟨a, ha, hb⟩

theorem joinSep_noTerm (sep : Str) (hsep : noTerm sep) :
    ∀ L : List Str, (∀ x ∈ L, noTerm x) → noTerm (joinSep sep L) := by
  intro L
  induction L with
  | nil => intro _ c hc; simp [joinSep] at hc
  | cons x tail ih =>
    intro h
    cases tail with
    | nil => exact h x (List.mem_cons_self _ _)
    | cons y r =>
      show noTerm (x ++ sep ++ joinSep sep (y :: r))
      refine noTerm_append _ _ (noTerm_append _ _ ?_ hsep) ?_
      · exact h x (List.mem_cons_self _ _)
      · exact ih (fun z hz => h z (List.mem_cons_of_mem x hz))

theorem ts_noTerm (f : FieldDef) (mns ens : List Str) (h : spaceFree f.type_name) :
    noTerm (prisma_field_to_ts f mns ens) := by
  have hnb : noTerm f.type_name := spaceFree_noTerm _ h
  have htb : noTerm (if (alookup SCALAR_TS_MAP f.type_name).isSome = true
      then (alookup SCALAR_TS_MAP f.type_name).getD f.type_name
      else if decide (f.type_name ∈ ens) = true then f.type_name else f.type_name) := by
    cases hs : alookup SCALAR_TS_MAP f.type_name with
    | none =>
      simp only [Option.isSome_none, Bool.false_eq_true, if_false, Option.getD_none]
      split <;> exact hnb
    | some v =>
      simp only [Option.isSome_some, if_true, Option.getD_some]
      exact scalar_values_noTerm (f.type_name, v)
        (alookup_mem SCALAR_TS_MAP f.type_name v hs)
  simp only [prisma_field_to_ts]
  split
  · split
    · refine noTerm_append _ _ (noTerm_append _ _ htb (by decide)) (by decide)
    · exact noTerm_append _ _ htb (by decide)
  · split
    · exact noTerm_append _ _ htb (by decide)
    · split
      · exact noTerm_append _ _ htb (by decide)
      · exact htb

theorem ts_flat_noTerm (f : FieldDef) (ens : List Str) (h : spaceFree f.type_name) :
    noTerm (prisma_field_to_ts_flat f ens) := by
  have hnb : noTerm f.type_name := spaceFree_noTerm _ h
  have htb : noTerm (if (alookup SCALAR_TS_MAP f.type_name).isSome = true
      then (alookup SCALAR_TS_MAP f.type_name).getD f.type_name
      else if decide (f.type_name ∈ ens) = true then f.type_name else sl "any") := by
    cases hs : alookup SCALAR_TS_MAP f.type_name with
    | none =>
      simp only [Option.isSome_none, Bool.false_eq_true, if_false, Option.getD_none]
      split
      · exact hnb
      · decide
    | some v =>
      simp only [Option.isSome_some, if_true, Option.getD_some]
      exact scalar_values_noTerm (f.type_name, v)
        (alookup_mem SCALAR_TS_MAP f.type_name v hs)
  simp only [prisma_field_to_ts_flat]
  split
  · split
    · refine noTerm_append _ _ (noTerm_append _ _ htb (by decide)) (by decide)
    · exact noTerm_append _ _ htb (by decide)
  · split
    · exact noTerm_append _ _ htb (by decide)
    · exact htb

theorem enumUnionLine_noTerm (ed : EnumDef) (hn : spaceFree ed.name)
    (hv : ∀ v ∈ ed.values, spaceFree v) : noTerm (enumUnionLine ed) := by
  unfold enumUnionLine
  refine noTerm_append _ _ (noTerm_append _ _ (noTerm_append _ _ (noTerm_append _ _
    (by decide) (spaceFree_noTerm _ hn)) (by decide)) ?_) (by decide)
  refine joinSep_noTerm (sl " | ") (by decide) _ ?_
  intro x hx
  rcases List.mem_map.mp hx with ⟨v, hv2, he⟩
  subst he
  intro c hc
  rcases List.mem_cons.mp hc with h | h
  · subst h; decide
  · rcases List.mem_append.mp h with h2 | h2
    · exact spaceFree_noTerm v (hv v hv2) c h2
    · simp only [List.mem_singleton] at h2
      subst h2; decide

theorem fieldLine_noTerm (mns ens : List Str) (f : FieldDef) (hf : fieldInv f) :
    noTerm (fieldLine mns ens f) := by
  unfold fieldLine
  exact noTerm_append _ _ (noTerm_append _ _ (noTerm_append _ _ (noTerm_append _ _
    (by decide) (spaceFree_noTerm _ hf.1)) (by decide))
    (ts_noTerm f mns ens hf.2.1)) (by decide)

theorem fieldLineFlat_noTerm (ens : List Str) (f : FieldDef) (hf : fieldInv f) :
    noTerm (fieldLineFlat ens f) := by
  unfold fieldLineFlat
  exact noTerm_append _ _ (noTerm_append _ _ (noTerm_append _ _ (noTerm_append _ _
    (by decide) (spaceFree_noTerm _ hf.1)) (by decide))
    (ts_flat_noTerm f ens hf.2.1)) (by decide)

theorem modelBlock_noTerm (mns ens : List Str) (flat : Bool) (md : ModelDef)
    (hn : spaceFree md.name) (hfs : ∀ f ∈ md.fields, fieldInv f) :
    ∀ l ∈ modelBlock mns ens flat md, noTerm l := by
  intro l hl
  unfold modelBlock at hl
  rcases List.mem_cons.mp hl with h | h
  · subst h
    exact noTerm_append _ _ (noTerm_append _ _ (by decide) (spaceFree_noTerm _ hn))
      (by decide)
  · rcases List.mem_append.mp h with h2 | h2
    · rcases List.mem_append.mp h2 with h3 | h3
      · rcases List.mem_map.mp h3 with ⟨f, hfm, he⟩
        subst he
        exact fieldLine_noTerm mns ens f (hfs f hfm)
      · simp only [List.mem_cons, List.mem_singleton] at h3
        rcases h3 with h4 | h4
        · subst h4; decide
        · rcases h4 with h5 | h5
          · subst h5; decide
          · simp at h5
    · split at h2
      · rcases List.mem_cons.mp h2 with h3 | h3
        · subst h3
          exact noTerm_append _ _ (noTerm_append _ _ (by decide) (spaceFree_noTerm _ hn))
            (by decide)
        · rcases List.mem_append.mp h3 with h4 | h4
          · rcases (mem_catMap _ _ l).mp h4 with ⟨f, hfm, hfl⟩
            split at hfl
            · simp at hfl
            · simp only [List.mem_singleton] at hfl
              subst hfl
              exact fieldLineFlat_noTerm ens f (hfs f hfm)
          · simp only [List.mem_cons, List.mem_singleton] at h4
            rcases h4 with h5 | h5
            · subst h5; decide
            · rcases h5 with h6 | h6
              · subst h6; decide
              · simp at h6
      · simp at h2

/-- Under the parse invariant, every line emitted by the single-file
    emitter is terminator-free, so the newline join splits back exactly. -/
theorem singleFileLines_noTerm (e : List (Str × EnumDef)) (m : List (Str × ModelDef))
    (flat : Bool) (hinv : parseInv e m) :
    ∀ l ∈ singleFileLines e m flat, noTerm l := by
  intro l hl
  simp only [singleFileLines, List.mem_append] at hl
  rcases hl with ((((((h | h) | h) | h) | h) | h) | h)
  · fin_cases h <;> decide
  · split at h
    · simp at h
    · rcases List.mem_append.mp h with h2 | h2
      · fin_cases h2 <;> decide
      · rcases (mem_catMap _ _ l).mp h2 with ⟨p, hp, hpl⟩
        split at hpl
        · simp at hpl
        · rcases List.mem_cons.mp hpl with h3 | h3
          · subst h3
            have hi := hinv.1 p hp
            exact enumUnionLine_noTerm p.2 hi.2.1 hi.2.2
          · simp only [List.mem_singleton] at h3
            subst h3; decide
  · fin_cases h <;> decide
  · rcases List.mem_map.mp h with ⟨p, hp, he⟩
    subst he
    have hi := hinv.2 p hp
    refine noTerm_append _ _ (noTerm_append _ _ (by decide) ?_) (by decide)
    rw [hi.1]
    exact spaceFree_noTerm _ hi.2.1
  · simp only [List.mem_singleton] at h
    subst h; decide
  · fin_cases h <;> decide
  · rcases (mem_catMap _ _ l).mp h with ⟨p, hp, hpl⟩
    have hi := hinv.2 p hp
    exact modelBlock_noTerm _ _ flat p.2 hi.2.1 hi.2.2 l hpl

theorem spaceFree_append (a b : Str) (ha : spaceFree a) (hb : spaceFree b) :
    spaceFree (a ++ b) := by
  intro c hc
  rcases List.mem_append.mp hc with h | h
  · exact ha c h
  · exact hb c h

theorem extractOne_enumUnionLine (ed : EnumDef) (hn : spaceFree ed.name) :
    extractOne (enumUnionLine ed) = [ed.name] := by
  have heq : enumUnionLine ed = sl "export type " ++ (ed.name ++ ' ' ::
      ('=' :: ' ' :: (joinSep (sl " | ") (ed.values.map (fun v => '"' :: v ++ ['"'])) ++
        sl ";"))) := by
    unfold enumUnionLine
    simp [sl, List.append_assoc]
  rw [heq]
  exact extractOne_type ed.name hn _

theorem extractDecls_enumSection (e : List (Str × EnumDef))
    (hinv : ∀ p ∈ e, p.1 = p.2.name ∧ spaceFree p.2.name ∧ ∀ v ∈ p.2.values, spaceFree v) :
    extractDecls (enumLinesSection e) =
      catMap (fun p => if p.2.values = [] then [] else [p.2.name]) e := by
  induction e with
  | nil => rfl
  | cons p rest ih =>
    have hp := hinv p (List.mem_cons_self _ _)
    have hrest := fun q hq => hinv q (List.mem_cons_of_mem p hq)
    show extractDecls ((if p.2.values = [] then [] else [enumUnionLine p.2, []]) ++
      enumLinesSection rest) = _
    unfold extractDecls
    rw [catMap_append]
    show _ = (if p.2.values = [] then [] else [p.2.name]) ++ _
    split
    · exact ih hrest
    · show catMap extractOne [enumUnionLine p.2, []] ++ _ = _
      have : catMap extractOne [enumUnionLine p.2, []] = [p.2.name] := by
        show extractOne (enumUnionLine p.2) ++ (extractOne [] ++ []) = _
        rw [extractOne_enumUnionLine p.2 hp.2.1, extractOne_nil]
        rfl
      rw [this]
      exact congrArg (fun t => [p.2.name] ++ t) (ih hrest)

theorem extractDecls_forward (m : List (Str × ModelDef))
    (hinv : ∀ p ∈ m, p.1 = p.2.name ∧ spaceFree p.2.name) :
    extractDecls (m.map (fun p => sl "export interface " ++ p.1 ++ sl " \x7b\x7d")) =
      m.map (·.1) := by
  induction m with
  | nil => rfl
  | cons p rest ih =>
    have hp := hinv p (List.mem_cons_self _ _)
    show extractOne (sl "export interface " ++ p.1 ++ sl " \x7b\x7d") ++ _ = _
    have heq : sl "export interface " ++ p.1 ++ sl " \x7b\x7d" =
        sl "export interface " ++ (p.1 ++ ' ' :: sl "\x7b\x7d") := by
      simp [sl, List.append_assoc]
    rw [heq, extractOne_interface p.1 (hp.1 ▸ hp.2) _]
    exact congrArg (fun t => p.1 :: t) (ih (fun q hq => hinv q (List.mem_cons_of_mem p hq)))

theorem extractDecls_modelBlock (mns ens : List Str) (flat : Bool) (md : ModelDef)
    (hn : spaceFree md.name) :
    extractDecls (modelBlock mns ens flat md) =
      md.name :: (if flat then [md.name ++ sl "Flat"] else []) := by
  unfold modelBlock
  show extractOne (sl "export interface " ++ md.name ++ sl " \x7b") ++
    catMap extractOne ((md.fields.map (fieldLine mns ens) ++ [sl "\x7d", []]) ++ _) = _
  have heq : sl "export interface " ++ md.name ++ sl " \x7b" =
      sl "export interface " ++ (md.name ++ ' ' :: sl "\x7b") := by
    simp [sl, List.append_assoc]
  rw [heq, extractOne_interface md.name hn _, catMap_append, catMap_append]
  have hfl : catMap extractOne (md.fields.map (fieldLine mns ens)) = [] := by
    apply extractDecls_nil_of
    intro l hl
    rcases List.mem_map.mp hl with ⟨f, _, he⟩
    subst he
    exact extractOne_space _
  have hcl : catMap extractOne [sl "\x7d", ([] : Str)] = [] := by decide
  rw [hfl, hcl]
  split
  · have heqf : sl "export interface " ++ md.name ++ sl "Flat \x7b" =
        sl "export interface " ++ ((md.name ++ sl "Flat") ++ ' ' :: sl "\x7b") := by
      simp [sl, List.append_assoc]
    show [md.name] ++ ([] ++ [] ++ (extractOne (sl "export interface " ++ md.name ++
      sl "Flat \x7b") ++ catMap extractOne (flatFieldLines mns ens md ++ [sl "\x7d", []]))) = _
    rw [heqf, extractOne_interface (md.name ++ sl "Flat")
      (spaceFree_append md.name (sl "Flat") hn (by decide)) _]
    have hffl : catMap extractOne (flatFieldLines mns ens md ++ [sl "\x7d", []]) = [] := by
      rw [catMap_append, hcl]
      have : catMap extractOne (flatFieldLines mns ens md) = [] := by
        apply extractDecls_nil_of
        intro l hl
        rcases (mem_catMap _ _ l).mp hl with ⟨f, _, hfl2⟩
        split at hfl2
        · simp at hfl2
        · simp only [List.mem_singleton] at hfl2
          subst hfl2
          exact extractOne_space _
      rw [this]
      rfl
    rw [hffl]
    rfl
  · show [md.name] ++ ([] ++ [] ++ catMap extractOne ([] : List Str)) = _
    rfl

theorem extractDecls_blocks (mns ens : List Str) (flat : Bool)
    (m : List (Str × ModelDef)) (hinv : ∀ p ∈ m, spaceFree p.2.name) :
    extractDecls (catMap (fun p => modelBlock mns ens flat p.2) m) =
      catMap (fun p => p.2.name :: (if flat then [p.2.name ++ sl "Flat"] else [])) m := by
  induction m with
  | nil => rfl
  | cons p rest ih =>
    show extractDecls (modelBlock mns ens flat p.2 ++ _) = _
    unfold extractDecls
    rw [catMap_append]
    have h1 : catMap extractOne (modelBlock mns ens flat p.2) =
        p.2.name :: (if flat then [p.2.name ++ sl "Flat"] else []) :=
      extractDecls_modelBlock mns ens flat p.2 (hinv p (List.mem_cons_self _ _))
    rw [h1]
    show _ = (p.2.name :: (if flat then [p.2.name ++ sl "Flat"] else [])) ++ _
    exact congrArg (fun t => (p.2.name :: (if flat then [p.2.name ++ sl "Flat"] else [])) ++ t)
      (ih (fun q hq => hinv q (List.mem_cons_of_mem p hq)))

/-- C6, amended: the declaration identifiers of the single-file artifact
    are, in order: the two base aliases, the name of every enum with at
    least one value exactly once in declaration order, every model name
    once as a forward declaration in declaration order, then every model
    name again for its full interface (followed by the name with the Flat
    suffix when the flat flag is set). So each model name appears exactly
    twice (forward declaration and interface), a non-empty enum name once,
    and an empty enum not at all. -/
theorem c6_declaration_identifiers (s : Str) (e : List (Str × EnumDef))
    (m : List (Str × ModelDef)) (flat : Bool) (h : parse_prisma s = .ok (e, m)) :
    extractDecls (pyLines (generate_single_file e m flat)) =
      [sl "DateTimeString", sl "JsonValue"] ++
      catMap (fun p => if p.2.values = [] then [] else [p.2.name]) e ++
      m.map (·.1) ++
      catMap (fun p => p.2.name :: (if flat then [p.2.name ++ sl "Flat"] else [])) m := by
  have hinv := parse_inv s e m h
  have h1 : pyLines (generate_single_file e m flat) =
      dropLastEmpty (singleFileLines e m flat) :=
    pyLines_joinSep _ (singleFileLines_noTerm e m flat hinv)
  rw [h1, extractDecls_dropLastEmpty]
  show catMap extractOne (singleFileLines e m flat) = _
  simp only [singleFileLines]
  rw [catMap_append, catMap_append, catMap_append, catMap_append, catMap_append,
    catMap_append]
  have hA : catMap extractOne
      [sl "// Auto-generated from Prisma schema.",
       sl "// Generated by Prisma TypeTags (single file).", [],
       sl "export type DateTimeString = string;", sl "export type JsonValue = any;", []] =
      [sl "DateTimeString", sl "JsonValue"] := by decide
  have hB : catMap extractOne (if e = [] then []
      else [sl "// =========================", sl "// ENUM TYPES",
        sl "// =========================", []] ++ enumLinesSection e) =
      catMap (fun p => if p.2.values = [] then [] else [p.2.name]) e := by
    by_cases he : e = []
    · rw [if_pos he, he]
      rfl
    · rw [if_neg he, catMap_append]
      have hhdr : catMap extractOne [sl "// =========================", sl "// ENUM TYPES",
          sl "// =========================", ([] : Str)] = [] := by decide
      rw [hhdr]
      show [] ++ extractDecls (enumLinesSection e) = _
      rw [extractDecls_enumSection e hinv.1]
      rfl
  have hC : catMap extractOne [sl "// =========================",
      sl "// FORWARD DECLARATIONS", sl "// =========================", ([] : Str)] = [] := by
    decide
  have hD : catMap extractOne
      (m.map (fun p => sl "export interface " ++ p.1 ++ sl " \x7b\x7d")) =
      m.map (·.1) :=
    extractDecls_forward m (fun p hp => ⟨(hinv.2 p hp).1, (hinv.2 p hp).2.1⟩)
  have hE : catMap extractOne [([] : Str)] = [] := by decide
  have hF : catMap extractOne [sl "// =========================", sl "// MODELS",
      sl "// =========================", ([] : Str)] = [] := by decide
  have hG := extractDecls_blocks (m.map (·.1)) (e.map (·.1)) flat m
    (fun p hp => (hinv.2 p hp).2.1)
  simp only [extractDecls] at hG
  rw [hA, hB, hC, hD, hE, hF, hG]
  simp [List.append_assoc]

/-- The schema text of the identifier counterexample: one model with no
    fields and one enum with no values. -/
def c6text : Str := sl "model M \x7b\n\x7d\nenum E \x7b\n\x7d"

/-- C6, counterexample: in the single-file artifact generated from a model
    M and an empty enum E, the declaration identifier M appears twice (the
    forward declaration and the interface) and E appears zero times, so
    neither parsed name appears exactly once. -/
theorem c6_counterexample :
    ¬ ((extractDecls (pyLines (generate_single_file (enumsOf (parse_prisma c6text))
        (modelsOf (parse_prisma c6text)) false))).count (sl "M") = 1 ∧
      (extractDecls (pyLines (generate_single_file (enumsOf (parse_prisma c6text))
        (modelsOf (parse_prisma c6text)) false))).count (sl "E") = 1) := by
  decide

theorem c6_declaration_identifiers_witness :
    extractDecls (pyLines (generate_single_file [(sl "E", ⟨sl "E", []⟩)]
      [(sl "M", ⟨sl "M", [], none⟩)] true)) =
      [sl "DateTimeString", sl "JsonValue", sl "M", sl "M", sl "MFlat"] := by
  have h := c6_declaration_identifiers c6text [(sl "E", ⟨sl "E", []⟩)]
    [(sl "M", ⟨sl "M", [], none⟩)] true rfl
  exact h.trans (by decide)
